import Mathlib

/-!
# Verification of the tile-atlas enrichment pipeline (`tools/tag_atlas.py`)

A shallow embedding of the enrichment-and-validation pipeline of
`tools/tag_atlas.py`: the batch planner, the merge/apply step, the oracle
response extraction, the per-batch retry loop, the catalog save routine, the
consistency engine (check/fix), and the verify-mode fix application.

Modelling conventions:
* A sprite entry is modelled by its three enrichment fields
  (`description`, `tags`, `tile_type`); positional fields (`row`, `col`,
  `tiles_x`, `tiles_y`) are carried along untouched by every modelled
  operation and are omitted.
* A catalog (the `"sprites"` dict) is an ordered association list
  `List (String × Sprite)`; Python dicts preserve insertion order.
* Python strings are `String`; `sorted` on Python strings compares code
  points lexicographically, modelled by an executable comparison on the
  underlying `List Char`.
* Oracle entry fields are modelled at the type the protocol specifies
  (strings / string lists); the truthiness guards (`if entry.get("x")`)
  become emptiness tests on optional fields.
-/

/-- One sprite record of an index JSON, restricted to its enrichment fields.
Mirrors the dict values of `data["sprites"]` in `tag_atlas.py`. -/
structure Sprite where
  description : String
  tags : List String
  tile_type : String
deriving DecidableEq, Repr

/-- The `"sprites"` mapping of an index JSON: an ordered association list
from sprite key to sprite record. -/
abbrev Catalog := List (String × Sprite)

/-- `is_enriched` (tag_atlas.py line 439): a sprite is enriched iff
`description`, `tags` and `tile_type` are all truthy (non-empty). -/
def is_enriched (e : Sprite) : Bool :=
  e.description ≠ "" && e.tags ≠ [] && e.tile_type ≠ ""

/-- Look a key up in a catalog (Python `sprites[key]`). -/
def lookupCat (k : String) : Catalog → Option Sprite
  | [] => none
  | p :: rest => if p.1 = k then some p.2 else lookupCat k rest

/-- Replace the sprite stored under `k` (Python `sprites[key] = ...`;
the key is always present when the code assigns). -/
def updateCat (k : String) (f : Sprite → Sprite) (cat : Catalog) : Catalog :=
  cat.map (fun p => if p.1 = k then (p.1, f p.2) else p)

/-! ## Lexicographic string comparison (Python `sorted` / `<` on `str`) -/

/-- Lexicographic (code-point) comparison on char lists, the order Python
uses to compare strings. -/
def lexLeChars : List Char → List Char → Bool
  | [], _ => true
  | _ :: _, [] => false
  | a :: as, b :: bs =>
    if a.toNat < b.toNat then true
    else if b.toNat < a.toNat then false
    else lexLeChars as bs

/-- `a ≤ b` on Python strings. -/
def strLeB (a b : String) : Bool := lexLeChars a.data b.data

/-- Strict `a < b` on Python strings. -/
def strLtB (a b : String) : Bool := strLeB a b && !(decide (a = b))

/-- Sorting relation used to model Python `sorted` over strings. -/
def strLeR (a b : String) : Prop := strLeB a b = true

instance : DecidableRel strLeR := fun a b => by
  unfold strLeR; infer_instance

/-- Python `sorted` on a list of strings. -/
def pySorted (l : List String) : List String := l.insertionSort strLeR

/-! ## Batch planner (`process_atlas`, lines 600–658, and `group_by_prefix`) -/

/-- `key.replace("\\", "/")`. -/
def normKey (k : String) : String :=
  ⟨k.data.map (fun c => if c = '\\' then '/' else c)⟩

/-- Split a char list at `/` (Python `str.split("/")`; splitting the empty
string yields `[""]`, one empty part). -/
def splitSlash : List Char → List (List Char)
  | [] => [[]]
  | c :: rest =>
    let r := splitSlash rest
    if c = '/' then [] :: r
    else
      match r with
      | [] => [[c]]
      | p :: ps => (c :: p) :: ps

/-- The grouping key of `group_by_prefix` (lines 444–457): the first two
path segments when the key has ≥ 3 segments, the first segment when it has
2, and `"_root"` otherwise. -/
def groupOfKey (k : String) : String :=
  let parts := splitSlash (normKey k).data
  if parts.length ≥ 3 then
    ⟨(parts.get! 0) ++ ('/' :: parts.get! 1)⟩
  else if parts.length ≥ 2 then
    ⟨parts.get! 0⟩
  else "_root"

/-- The keys needing enrichment, in catalog order
(`todo = [key for key in sprites if not is_enriched(sprites[key])]`). -/
def todoKeys (cat : Catalog) : List String :=
  (cat.filter (fun p => !is_enriched p.2)).map (·.1)

/-- The planner's deterministic work order (lines 624–628): group the todo
keys by `group_by_prefix`, then concatenate the groups in sorted group
order, each group sorted by key. -/
def orderedTodo (cat : Catalog) : List String :=
  let todo := todoKeys cat
  let prefixes := pySorted (todo.map groupOfKey).dedup
  prefixes.flatMap (fun p => pySorted (todo.filter (fun k => groupOfKey k = p)))

/-- Fuel-driven worker for `chunksOf` (structural recursion on the fuel so
the kernel can evaluate it). -/
def chunksGo (B : Nat) : Nat → List α → List (List α)
  | 0, _ => []
  | _, [] => []
  | fuel + 1, x :: xs => (x :: xs.take (B - 1)) :: chunksGo B fuel (xs.drop (B - 1))

/-- Consecutive slices of size `B`
(`for batch_start in range(0, len(ordered_keys), batch_size)`). -/
def chunksOf (B : Nat) (l : List α) : List (List α) := chunksGo B l.length l

/-- The full batch plan of `process_atlas` for batch size `B` with no
`--limit` cap. -/
def planBatches (B : Nat) (cat : Catalog) : List (List String) :=
  chunksOf B (orderedTodo cat)

/-! ## Merge/apply (`process_atlas`, lines 768–790) -/

/-- One element of the parsed oracle array as consumed by the merge loop.
`junk` is an element that is not a JSON object (`isinstance(entry, dict)`
fails); otherwise the three optional fields, `none` when absent. -/
inductive MergeEntry where
  | junk
  | fields (description : Option String) (tags : Option (List String))
      (tile_type : Option String)
deriving DecidableEq, Repr

/-- Remove the sprite's `tile_type` from its own tags if present
(lines 782–787: `if tt and tt in tags: tags.remove(tt)` — Python
`list.remove` deletes only the first occurrence). -/
def stripTTfromTags (e : Sprite) : Sprite :=
  if e.tile_type ≠ "" ∧ e.tile_type ∈ e.tags then
    { e with tags := e.tags.erase e.tile_type }
  else e

/-- Apply one oracle entry's fields to a sprite (lines 776–787): each field
is overwritten only when the entry supplies a truthy value, then the
`tile_type` is stripped from the tags. -/
def mergeFields (d : Option String) (tg : Option (List String))
    (tt : Option String) (e : Sprite) : Sprite :=
  let e1 := match d with
    | some s => if s ≠ "" then { e with description := s } else e
    | none => e
  let e2 := match tg with
    | some l => if l ≠ [] then { e1 with tags := l } else e1
    | none => e1
  let e3 := match tt with
    | some s => if s ≠ "" then { e2 with tile_type := s } else e2
    | none => e2
  stripTTfromTags e3

/-- Effect of one array element on a sprite (no effect for a non-dict). -/
def applyEntry (me : MergeEntry) (e : Sprite) : Sprite :=
  match me with
  | .junk => e
  | .fields d tg tt => mergeFields d tg tt e

/-- The merge loop body over the positional (key, entry) pairs.  The
enumerate/`break` of lines 770–772 stops at the shorter of the two lists,
which is exactly `List.zip`; a non-dict entry is skipped without counting
(`applied`). -/
def mergeLoop : List (String × MergeEntry) → Catalog → Catalog × Nat
  | [], cat => (cat, 0)
  | (k, me) :: rest, cat =>
    match me with
    | .junk => mergeLoop rest cat
    | .fields d tg tt =>
      let out := mergeLoop rest (updateCat k (mergeFields d tg tt) cat)
      (out.1, out.2 + 1)

/-- Merge a batch result into the catalog (lines 769–788), matching entries
to batch keys strictly by position. -/
def mergeBatch (keys : List String) (cat : Catalog)
    (entries : List MergeEntry) : Catalog × Nat :=
  mergeLoop (keys.zip entries) cat


/-! ## JSON values and `json.loads` (used by `parse_ai_response`) -/

/-- A JSON value.  Numbers keep their source text (their numeric value is
never consulted by the modelled code paths). -/
inductive Json where
  | null
  | bool (b : Bool)
  | num (raw : String)
  | str (s : String)
  | arr (elems : List Json)
  | obj (fields : List (String × Json))

/-- JSON whitespace. -/
def isJsonWs (c : Char) : Bool := c = ' ' || c = '\t' || c = '\n' || c = '\r'

/-- Python (ASCII) whitespace, for `str.strip()`. -/
def isPyWs (c : Char) : Bool :=
  c = ' ' || c = '\t' || c = '\n' || c = '\r' || c = '\x0b' || c = '\x0c'

/-- `str.strip()`. -/
def pyStrip (s : String) : String :=
  ⟨(s.data.dropWhile isPyWs).reverse.dropWhile isPyWs |>.reverse⟩

/-- Crude well-formedness of a JSON number token. -/
def numOk (digits : List Char) : Bool :=
  digits ≠ [] && digits ≠ ['-'] && digits.any Char.isDigit

/-- Resolve a string escape (simplified: the claims never inspect escaped
string contents). -/
def unescape (e : Char) : Char :=
  if e = 'n' then '\n' else if e = 't' then '\t' else if e = 'r' then '\r' else e

mutual

/-- Parse one JSON value from the front of the input. Fuel-driven recursive
descent; the fuel is instantiated with the input length, which always
suffices since every step consumes at least one character. -/
def parseVal : Nat → List Char → Option (Json × List Char)
  | 0, _ => none
  | _ + 1, [] => none
  | fuel + 1, c :: rest =>
    if isJsonWs c then parseVal fuel rest
    else if c = 'n' then
      if "ull".data.isPrefixOf rest then some (.null, rest.drop 3) else none
    else if c = 't' then
      if "rue".data.isPrefixOf rest then some (.bool true, rest.drop 3) else none
    else if c = 'f' then
      if "alse".data.isPrefixOf rest then some (.bool false, rest.drop 4) else none
    else if c = '"' then
      match parseStr fuel rest with
      | some (s, rest') => some (.str ⟨s⟩, rest')
      | none => none
    else if c = '[' then parseArr fuel (rest.dropWhile isJsonWs)
    else if c = '{' then parseObj fuel (rest.dropWhile isJsonWs)
    else if c = '-' || c.isDigit then
      match (c :: rest).span (fun d => d.isDigit || d = '-' || d = '+' ||
          d = '.' || d = 'e' || d = 'E') with
      | (digits, rest') =>
        if numOk digits then some (.num ⟨digits⟩, rest') else none
    else none
termination_by structural fuel _ => fuel

/-- Parse the remainder of a string literal (after the opening quote),
returning its (escape-resolved, simplified) characters. -/
def parseStr : Nat → List Char → Option (List Char × List Char)
  | 0, _ => none
  | _ + 1, [] => none
  | fuel + 1, c :: rest =>
    if c = '"' then some ([], rest)
    else if c = '\\' then
      match rest with
      | [] => none
      | e :: rest' =>
        match parseStr fuel rest' with
        | some (s, r) => some (unescape e :: s, r)
        | none => none
    else
      match parseStr fuel rest with
      | some (s, r) => some (c :: s, r)
      | none => none
termination_by structural fuel _ => fuel

/-- Parse array elements after `[` (leading whitespace already skipped). -/
def parseArr : Nat → List Char → Option (Json × List Char)
  | 0, _ => none
  | _ + 1, [] => none
  | fuel + 1, c :: rest =>
    if c = ']' then some (.arr [], rest)
    else
      match parseVal fuel (c :: rest) with
      | none => none
      | some (v, rest') =>
        match parseArrTail fuel (rest'.dropWhile isJsonWs) with
        | some (vs, rest'') => some (.arr (v :: vs), rest'')
        | none => none
termination_by structural fuel _ => fuel

/-- Parse `, value`* `]` after one array element. -/
def parseArrTail : Nat → List Char → Option (List Json × List Char)
  | 0, _ => none
  | _ + 1, [] => none
  | fuel + 1, c :: rest =>
    if c = ']' then some ([], rest)
    else if c = ',' then
      match parseVal fuel rest with
      | none => none
      | some (v, rest') =>
        match parseArrTail fuel (rest'.dropWhile isJsonWs) with
        | some (vs, rest'') => some (v :: vs, rest'')
        | none => none
    else none
termination_by structural fuel _ => fuel

/-- Parse object members after `{` (leading whitespace already skipped). -/
def parseObj : Nat → List Char → Option (Json × List Char)
  | 0, _ => none
  | _ + 1, [] => none
  | fuel + 1, c :: rest =>
    if c = '}' then some (.obj [], rest)
    else if c = '"' then
      match parseMember fuel (c :: rest) with
      | none => none
      | some (kv, rest') =>
        match parseObjTail fuel (rest'.dropWhile isJsonWs) with
        | some (kvs, rest'') => some (.obj (kv :: kvs), rest'')
        | none => none
    else none
termination_by structural fuel _ => fuel

/-- Parse one `"key": value` member. -/
def parseMember : Nat → List Char → Option ((String × Json) × List Char)
  | 0, _ => none
  | _ + 1, [] => none
  | fuel + 1, c :: rest =>
    if c = '"' then
      match parseStr fuel rest with
      | none => none
      | some (k, rest') =>
        match rest'.dropWhile isJsonWs with
        | ':' :: rest'' =>
          match parseVal fuel rest'' with
          | some (v, r) => some ((⟨k⟩, v), r)
          | none => none
        | _ => none
    else none
termination_by structural fuel _ => fuel

/-- Parse `, member`* `}` after one object member. -/
def parseObjTail : Nat → List Char → Option (List (String × Json) × List Char)
  | 0, _ => none
  | _ + 1, [] => none
  | fuel + 1, c :: rest =>
    if c = '}' then some ([], rest)
    else if c = ',' then
      match parseMember fuel (rest.dropWhile isJsonWs) with
      | none => none
      | some (kv, rest') =>
        match parseObjTail fuel (rest'.dropWhile isJsonWs) with
        | some (kvs, rest'') => some (kv :: kvs, rest'')
        | none => none
    else none
termination_by structural fuel _ => fuel

end

/-- `json.loads`: parse a complete JSON document; trailing non-whitespace
makes the parse fail. -/
def jsonLoads (s : String) : Option Json :=
  match parseVal (s.length + 1) s.data with
  | some (v, rest) => if rest.dropWhile isJsonWs = [] then some v else none
  | none => none


/-! ## Response envelope and array extraction (`parse_ai_response`, lines 370–436) -/

/-- Python truthiness of a JSON value (`if entry.get(...)`).  For numbers the
mantissa is inspected textually (`0`, `0.0`, `-0e5` … are falsy). -/
def jTruthy : Json → Bool
  | .null => false
  | .bool b => b
  | .str s => s ≠ ""
  | .arr l => !l.isEmpty
  | .obj l => !l.isEmpty
  | .num raw =>
    (raw.data.takeWhile (fun c => c ≠ 'e' && c ≠ 'E')).any
      (fun c => c.isDigit && c ≠ '0')

/-- Field lookup in a parsed JSON object. `json.loads` keeps the last
duplicate of a repeated key, hence the reverse search. -/
def jGet (fs : List (String × Json)) (k : String) : Option Json :=
  (fs.reverse.find? (fun p => p.1 = k)).map (·.2)

/-- The string carried by a JSON value, or `""`.  (The script itself would
crash with `AttributeError` later if a truthy non-string ended up as the
response text; those paths are outside the model.) -/
def jStrOrEmpty : Json → String
  | .str s => s
  | _ => ""

/-- `" ".join(block.get("text", "") for block in content if
isinstance(block, dict) and block.get("type") == "text")`. -/
def joinTextBlocks (blocks : List Json) : String :=
  let parts := (blocks.filterMap (fun b =>
    match b with
    | .obj fs =>
      if (match jGet fs "type" with | some (.str s) => s == "text" | _ => false) then
        some (match jGet fs "text" with | some v => jStrOrEmpty v | none => "")
      else none
    | _ => none))
  ⟨(parts.map String.data).intersperse " ".data |>.flatten⟩

/-- Extract the response text from the Claude Code envelope (lines 380–398):
a truthy `result` wins, else `content` (joined text blocks or a plain
string), else the first of `text`/`message`/`output` holding a string. -/
def extractEnvText (fs : List (String × Json)) : String :=
  let t1 :=
    match jGet fs "result" with
    | some v =>
      if jTruthy v then jStrOrEmpty v
      else fromContent fs
    | none => fromContent fs
  if t1 ≠ "" then t1
  else
    match ["text", "message", "output"].findSome? (fun k =>
        match jGet fs k with
        | some (.str s) => some s
        | _ => none) with
    | some s => s
    | none => ""
where
  /-- The `elif "content" in response` branch. -/
  fromContent (fs : List (String × Json)) : String :=
    match jGet fs "content" with
    | some (.arr blocks) => joinTextBlocks blocks
    | some (.str s) => s
    | _ => ""

/-- Strategy (a), also the shared final parse step of (b) and (c): parse a
text as JSON and keep it only when it is an array (lines 407–411). -/
def directArr (t : String) : Option (List Json) :=
  match jsonLoads t with
  | some (.arr l) => some l
  | _ => none

/-- Index of the first occurrence of ` ``` `. -/
def findTripleTick : List Char → Option Nat
  | [] => none
  | c :: rest =>
    if c = '`' && ['`', '`'].isPrefixOf rest then some 0
    else (findTripleTick rest).map (· + 1)

/-- The text captured by the fence regex
`r'```(?:json)?\s*\n?(.*?)\n?\s*```'` followed by `.strip()` (lines
414–419): everything between the first fence (with an optional `json` tag)
and the next fence, stripped.  The lazy group plus the outer `.strip()`
make the `\s*`/`\n?` fragments irrelevant. -/
def fenceContent (t : String) : Option String :=
  match findTripleTick t.data with
  | none => none
  | some i =>
    let after := t.data.drop (i + 3)
    let body := if "json".data.isPrefixOf after then after.drop 4 else after
    match findTripleTick body with
    | none => none
    | some j => some (pyStrip ⟨body.take j⟩)

/-- Strategy (b): parse the content of the first complete markdown fence. -/
def fencedArr (t : String) : Option (List Json) :=
  match fenceContent t with
  | some g => directArr g
  | none => none

/-- Strategy (c) as the code implements it: the greedy regex
`r'\[[\s\S]*\]'` matches from the first `[` to the last `]`
(lines 426–433). -/
def spanArr (t : String) : Option (List Json) :=
  let cs := t.data
  match cs.findIdx? (· = '['), cs.reverse.findIdx? (· = ']') with
  | some i, some jr =>
    let j := cs.length - 1 - jr
    if i < j then directArr ⟨(cs.drop i).take (j - i + 1)⟩ else none
  | _, _ => none

/-- The array-extraction cascade of `parse_ai_response` on the extracted
text (lines 404–436): direct parse, then fence strip, then greedy
bracket span; `none` when everything fails. -/
def extractArrCore (t0 : String) : Option (List Json) :=
  let t := pyStrip t0
  match directArr t with
  | some l => some l
  | none =>
    match fencedArr t with
    | some l => some l
    | none => spanArr t

/-- Try an ordered list of extraction strategies until one yields an
array (the spec's §4.3 formulation). -/
def tryStrategies : List (String → Option (List Json)) → String → Option (List Json)
  | [], _ => none
  | s :: rest, t =>
    match s t with
    | some l => some l
    | none => tryStrategies rest t

/-- Scan a char list opening at `[` for the matching balanced `]`,
returning the balanced substring. -/
def balGo : List Char → Nat → List Char → Option (List Char)
  | [], _, _ => none
  | c :: rest, depth, acc =>
    if c = '[' then balGo rest (depth + 1) (c :: acc)
    else if c = ']' then
      if depth ≤ 1 then some (c :: acc).reverse else balGo rest (depth - 1) (c :: acc)
    else balGo rest depth (c :: acc)

/-- Modelled from the spec: strategy (c) as the spec words it — "regex-scan
for the first balanced JSON array substring". -/
def balancedArr (t : String) : Option (List Json) :=
  match t.data.findIdx? (· = '[') with
  | some i =>
    match balGo (t.data.drop i) 0 [] with
    | some sub => directArr ⟨sub⟩
    | none => none
  | none => none

/-- Modelled from the spec: the extraction cascade exactly as the spec
states it, with a first-balanced-substring strategy (c). -/
def extractArrSpec (t : String) : Option (List Json) :=
  tryStrategies [directArr, fencedArr, balancedArr] (pyStrip t)

/-- The extraction cascade as an ordered strategy list, with the greedy
first-`[`-to-last-`]` span the code actually uses as strategy (c). -/
def extractArrSpanned (t : String) : Option (List Json) :=
  tryStrategies [directArr, fencedArr, spanArr] (pyStrip t)

/-- `parse_ai_response(stdout)` (lines 370–436): unwrap the envelope, then
run the extraction cascade; `None` when the outer JSON fails, no text can
be extracted, or no strategy yields an array. -/
def parse_ai_response (stdout : String) : Option (List Json) :=
  match jsonLoads stdout with
  | some (.obj fs) =>
    let text := extractEnvText fs
    if text = "" then none else extractArrCore text
  | _ => none

/-! ## Per-batch oracle invocation with retries (lines 726–763) -/

/-- Outcome of one `subprocess.run` invocation of the oracle. -/
inductive CallOutcome where
  | timeout
  | transportError
  | exitNonzero
  | ok (stdout : String)

/-- An attempt that yields no parsed result: a timeout, a subprocess
exception, a non-zero exit, or an unparseable stdout. -/
def attemptFailed : CallOutcome → Bool
  | .ok s => (parse_ai_response s).isNone
  | _ => true

/-- The retry loop (lines 728–759): attempts are consumed in order until
one parses; `none` when every attempt fails. -/
def attemptLoop : List CallOutcome → Option (List Json)
  | [] => none
  | o :: rest =>
    match o with
    | .ok s =>
      match parse_ai_response s with
      | some arr => some arr
      | none => attemptLoop rest
    | _ => attemptLoop rest

/-- `max_retries = 3` (line 727). -/
def max_retries : Nat := 3

/-- Convert a parsed array element to the merge loop's view of it. -/
def toMergeEntry : Json → MergeEntry
  | .obj fs =>
    .fields
      (match jGet fs "description" with | some (.str s) => some s | _ => none)
      (match jGet fs "tags" with
       | some (.arr l) =>
         if l.all (fun j => match j with | .str _ => true | _ => false) then
           some (l.filterMap (fun j => match j with | .str s => some s | _ => none))
         else none
       | _ => none)
      (match jGet fs "tile_type" with | some (.str s) => some s | _ => none)
  | _ => .junk

/-- Result of one batch of `process_atlas`: the catalog afterwards and
whether `save_index` ran for this batch (line 793). -/
structure BatchOutcome where
  catalog : Catalog
  checkpointed : Bool
deriving DecidableEq

/-- One iteration of the batch loop of `process_atlas` (lines 726–796),
given the oracle call outcomes: all-failed batches are skipped before the
merge and before the checkpoint (lines 761–763). -/
def processBatch (outcomes : List CallOutcome) (batchKeys : List String)
    (cat : Catalog) : BatchOutcome :=
  match attemptLoop (outcomes.take max_retries) with
  | none => ⟨cat, false⟩
  | some arr => ⟨(mergeBatch batchKeys cat (arr.map toMergeEntry)).1, true⟩

/-! ## `save_index` write protocol (lines 289–294) -/

/-- `save_index` runs `open(path, "w")` — which immediately truncates any
existing file — and then streams `json.dump(data, f)` plus a final newline
into it.  This models the file content at `path` when the process dies
after `bytesWritten` characters of the serialized document have reached the
file: the prefix written so far (`some` = the file exists). -/
def save_index_partial (serialized : String) (bytesWritten : Nat) : Option String :=
  some ⟨serialized.data.take bytesWritten⟩


/-! ## Consistency engine (`check_atlas`, lines 1072–1198, and `check_dcss`,
lines 141–232) -/

/-- A reported consistency issue: (category, entity key). The human-readable
detail strings are not modelled. -/
abbrev Issue := String × String

/-- `TAG_SPELLING` (line 113) as the lookup `TAG_SPELLING.get(t, t)`. -/
def TAG_SPELLING (t : String) : String :=
  if t = "gray" then "grey" else if t = "armor" then "armour" else t

/-- `CREATURE_STRIP_TAGS` (line 111). Python sets are used only for
membership, so a list model is faithful. -/
def CREATURE_STRIP_TAGS : List String := ["armour", "equipment", "weapon", "player"]

/-- `ALTAR_STRIP_TAGS` (line 112). -/
def ALTAR_STRIP_TAGS : List String := ["weapon", "sword"]

/-- `HOLY_GODS` (line 108). -/
def HOLY_GODS : List String := ["zin", "shining_one", "elyvilon"]

/-- `UNHOLY_GODS` (lines 109–110). -/
def UNHOLY_GODS : List String :=
  ["beogh", "jiyva", "kikubaaqudgha", "lugonu", "makhleb", "yredelemnul"]

/-- `DIR_EXPECTED_TAGS` (lines 118–138), in source (dict insertion) order. -/
def DIR_EXPECTED_TAGS : List (String × List String) :=
  [("dungeon/doors", ["door"]), ("dungeon/altars", ["altar"]),
   ("dungeon/walls", ["wall"]), ("dungeon/floor", ["floor"]),
   ("monster/undead", ["undead"]), ("monster/demons", ["demon"]),
   ("monster/dragons", ["dragon"]), ("monster/insects", ["insect"]),
   ("item/weapon", ["weapon"]), ("item/armour", ["armour"]),
   ("item/potion", ["potion"]), ("item/scroll", ["scroll"]),
   ("item/wand", ["wand"]), ("item/ring", ["ring"]),
   ("item/amulet", ["amulet"]), ("item/book", ["book"]),
   ("item/food", ["food"]), ("item/gold", ["gold"]),
   ("player/", ["player"])]

/-- `str.startswith`. -/
def startsWithB (pre s : String) : Bool := pre.data.isPrefixOf s.data

/-! ### Description spelling substitution (`DESC_SPELLING`, lines 114–117)

The two patterns are `\bgray\b` and `\barmor\b` with `re.IGNORECASE`.
Both words consist solely of word characters and are delimited by `\b` on
both sides, so a regex match is exactly a maximal run of word characters
whose lowercase form equals the word, and `pattern.sub` rewrites every such
run.  The substitution is therefore modelled by splitting the text into
maximal runs of equal word-character class and rewriting the matching
runs. -/

/-- Python's `\w` (restricted to ASCII, the alphabet of the catalogs). -/
def isWordChar (c : Char) : Bool := c.isAlphanum || c = '_'

/-- ASCII lowercasing (Python `str.lower()` on the ASCII range). -/
def asciiLower (c : Char) : Char :=
  match c with
  | 'A' => 'a' | 'B' => 'b' | 'C' => 'c' | 'D' => 'd' | 'E' => 'e'
  | 'F' => 'f' | 'G' => 'g' | 'H' => 'h' | 'I' => 'i' | 'J' => 'j'
  | 'K' => 'k' | 'L' => 'l' | 'M' => 'm' | 'N' => 'n' | 'O' => 'o'
  | 'P' => 'p' | 'Q' => 'q' | 'R' => 'r' | 'S' => 's' | 'T' => 't'
  | 'U' => 'u' | 'V' => 'v' | 'W' => 'w' | 'X' => 'x' | 'Y' => 'y'
  | 'Z' => 'z' | d => d

/-- Split a char list into maximal runs of equal word-character class. -/
def chunkRuns : List Char → List (List Char)
  | [] => []
  | c :: rest =>
    match chunkRuns rest with
    | [] => [[c]]
    | [] :: chs => [c] :: chs
    | (d :: ds) :: chs =>
      if isWordChar c = isWordChar d then (c :: d :: ds) :: chs
      else [c] :: (d :: ds) :: chs

/-- Rewrite one run: a whole-run case-insensitive match of `w` becomes `r`. -/
def spellChunk (w r run : List Char) : List Char :=
  if run.map asciiLower = w then r else run

/-- `re.sub(r'\b<w>\b', r, s, flags=re.IGNORECASE)` for an all-word-char
word `w` (in lowercase) — see the section comment. -/
def reSubWord (w r s : List Char) : List Char :=
  ((chunkRuns s).map (spellChunk w r)).flatten

/-- The description pass of the spelling rule (lines 1136–1138): apply the
`DESC_SPELLING` substitutions in order. -/
def descFix (d : String) : String :=
  ⟨reSubWord "armor".data "armour".data (reSubWord "gray".data "grey".data d.data)⟩

/-! ### Altar filename parsing (lines 178–184) -/

/-- Remove every occurrence of `pat` (Python `str.replace(pat, "")`),
fuel-driven on the input length. -/
def removeSubGo (pat : List Char) : Nat → List Char → List Char
  | 0, s => s
  | _ + 1, [] => []
  | fuel + 1, c :: rest =>
    if pat.isPrefixOf (c :: rest) then removeSubGo pat fuel ((c :: rest).drop pat.length)
    else c :: removeSubGo pat fuel rest

/-- `s.replace(pat, "")` for a non-empty `pat`. -/
def removeSub (pat s : List Char) : List Char := removeSubGo pat s.length s

/-- `s.split("/")[-1]`. -/
def lastSegment (cs : List Char) : List Char := (splitSlash cs).getLastD []

/-- `re.sub(r'^altar_?', '', fname)`: strip one leading `altar_`/`altar`. -/
def stripAltarHead (cs : List Char) : List Char :=
  if "altar_".data.isPrefixOf cs then cs.drop 6
  else if "altar".data.isPrefixOf cs then cs.drop 5
  else cs

/-- `re.sub(r'_\d+$', '', s)`: strip one trailing `_<digits>`. -/
def stripTrailingNum (cs : List Char) : List Char :=
  let r := cs.reverse
  let digits := r.takeWhile Char.isDigit
  if digits ≠ [] then
    match r.drop digits.length with
    | '_' :: rest => rest.reverse
    | _ => cs
  else cs

/-- The god name parsed from an altar sprite key (lines 178–181). -/
def altarGodName (k : String) : String :=
  ⟨stripTrailingNum (stripAltarHead (removeSub ".png".data (lastSegment (normKey k).data)))⟩

/-- `god_name.split("_")[0]` (line 181; the `if god_name else ""` guard is
subsumed since splitting `""` yields `[""]`). -/
def altarGodBase (k : String) : String := ⟨(altarGodName k).data.takeWhile (· ≠ '_')⟩

/-- `should_holy` (line 183). -/
def shouldHoly (k : String) : Bool :=
  HOLY_GODS.contains (altarGodBase k) || HOLY_GODS.contains (altarGodName k)

/-- `should_unholy` (line 184). -/
def shouldUnholy (k : String) : Bool :=
  UNHOLY_GODS.contains (altarGodBase k) || UNHOLY_GODS.contains (altarGodName k)

/-! ### The individual rules.  Each takes the fix flag, the entity key and
the sprite, and yields the (possibly mutated) sprite, the number of fixes
applied and the issues reported. -/

/-- Base rule 1 (lines 1105–1115): strip the `tile_type` from the tags
(`list.remove`: first occurrence only). -/
def ruleStripTT (fix : Bool) (k : String) (e : Sprite) : Sprite × Nat × List Issue :=
  if e.tile_type ≠ "" ∧ e.tile_type ∈ e.tags then
    if fix then ({ e with tags := e.tags.erase e.tile_type }, 1, [])
    else (e, 0, [("TILE_TYPE_IN_TAGS", k)])
  else (e, 0, [])

/-- Base rule 2 (lines 1117–1131): spelling normalization in tags. -/
def ruleTagSpell (fix : Bool) (k : String) (e : Sprite) : Sprite × Nat × List Issue :=
  let newTags := e.tags.map TAG_SPELLING
  if newTags ≠ e.tags then
    if fix then ({ e with tags := newTags }, 1, [])
    else (e, 0, [("SPELLING", k)])
  else (e, 0, [])

/-- Base rule 3 (lines 1133–1146): spelling normalization in descriptions. -/
def ruleDescSpell (fix : Bool) (k : String) (e : Sprite) : Sprite × Nat × List Issue :=
  let newDesc := descFix e.description
  if newDesc ≠ e.description then
    if fix then ({ e with description := newDesc }, 1, [])
    else (e, 0, [("SPELLING_DESC", k)])
  else (e, 0, [])

/-- DCSS rule (lines 145–156): strip equipment tags from creatures
(list comprehension: all occurrences). -/
def ruleCreature (fix : Bool) (k : String) (e : Sprite) : Sprite × Nat × List Issue :=
  if e.tile_type = "creature" ∧ e.tags.filter (CREATURE_STRIP_TAGS.contains ·) ≠ [] then
    if fix then ({ e with tags := e.tags.filter (!CREATURE_STRIP_TAGS.contains ·) }, 1, [])
    else (e, 0, [("CREATURE_EQUIP_TAG", k)])
  else (e, 0, [])

/-- DCSS rule (lines 158–169): strip weapon tags from altars. -/
def ruleAltarStrip (fix : Bool) (k : String) (e : Sprite) : Sprite × Nat × List Issue :=
  if e.tile_type = "altar" ∧ e.tags.filter (ALTAR_STRIP_TAGS.contains ·) ≠ [] then
    if fix then ({ e with tags := e.tags.filter (!ALTAR_STRIP_TAGS.contains ·) }, 1, [])
    else (e, 0, [("ALTAR_EQUIP_TAG", k)])
  else (e, 0, [])

/-- The ordered add/remove actions computed at lines 186–196
(`true` = add, `false` = remove). -/
def altarTagFixes (tags : List String) (sh su : Bool) : List (Bool × String) :=
  (if !tags.contains "sacred" then [(true, "sacred")] else []) ++
  (if sh && !tags.contains "holy" then [(true, "holy")] else []) ++
  (if !sh && tags.contains "holy" then [(false, "holy")] else []) ++
  (if su && !tags.contains "unholy" then [(true, "unholy")] else []) ++
  (if !su && tags.contains "unholy" then [(false, "unholy")] else [])

/-- Apply the actions (lines 200–204): re-checked appends, and removes via
`list.remove` (first occurrence; a no-op when absent). -/
def applyTagFixes : List (Bool × String) → List String → List String
  | [], tags => tags
  | (true, t) :: rest, tags =>
    applyTagFixes rest (if tags.contains t then tags else tags ++ [t])
  | (false, t) :: rest, tags =>
    applyTagFixes rest (if tags.contains t then tags.erase t else tags)

/-- DCSS rule (lines 171–212): altar sacred/holy/unholy alignment. -/
def ruleAltarAlign (fix : Bool) (k : String) (e : Sprite) : Sprite × Nat × List Issue :=
  if startsWithB "dungeon/altars" (normKey k) then
    let fixes := altarTagFixes e.tags (shouldHoly k) (shouldUnholy k)
    if fixes ≠ [] then
      if fix then ({ e with tags := applyTagFixes fixes e.tags }, 1, [])
      else (e, 0, [("ALTAR_ALIGN", k)])
    else (e, 0, [])
  else (e, 0, [])

/-- One prefix of the directory rule (lines 218–230). -/
def dirStep (fix : Bool) (k norm tt : String) (st : Sprite × Nat × List Issue)
    (pe : String × List String) : Sprite × Nat × List Issue :=
  if startsWithB pe.1 norm then
    let missing := pe.2.filter (fun t => !st.1.tags.contains t && t ≠ tt)
    if missing ≠ [] then
      if fix then
        ({ st.1 with tags :=
            missing.foldl (fun tg t => if tg.contains t then tg else tg ++ [t]) st.1.tags },
         st.2.1 + 1, st.2.2)
      else (st.1, st.2.1, st.2.2 ++ [("DIR_MISMATCH", k)])
    else st
  else st

/-- DCSS rule (lines 214–231): directory-implied tags, one pass per
matching prefix of `DIR_EXPECTED_TAGS` in source order (`tt` is read once
before the loop, line 217). -/
def ruleDirTags (fix : Bool) (k : String) (e : Sprite) : Sprite × Nat × List Issue :=
  DIR_EXPECTED_TAGS.foldl (dirStep fix k (normKey k) e.tile_type) (e, 0, [])

/-- Report-only per-entity checks (lines 1157–1170): tag-count bounds and
description-length bounds. -/
def reportOnlyIssues (k : String) (e : Sprite) : List Issue :=
  (if e.tags.length < 3 then [("FEW_TAGS", k)]
   else if e.tags.length > 10 then [("MANY_TAGS", k)] else []) ++
  (if e.description.length < 30 then [("SHORT_DESC", k)]
   else if e.description.length > 300 then [("LONG_DESC", k)] else [])

/-- The full per-entity pipeline of one `check_atlas` invocation, in rule
order.  In the source each rule is a separate loop over the `enriched`
dict; because every rule reads and writes only its own entity, running the
rule loops in sequence is the same as running the rule sequence on each
entity. -/
def entityCheck (hasDcss fix : Bool) (k : String) (e : Sprite) :
    Sprite × Nat × List Issue :=
  let s1 := ruleStripTT fix k e
  let s2 := ruleTagSpell fix k s1.1
  let s3 := ruleDescSpell fix k s2.1
  let s4 := if hasDcss then ruleCreature fix k s3.1 else (s3.1, 0, [])
  let s5 := if hasDcss then ruleAltarStrip fix k s4.1 else (s4.1, 0, [])
  let s6 := if hasDcss then ruleAltarAlign fix k s5.1 else (s5.1, 0, [])
  let s7 := if hasDcss then ruleDirTags fix k s6.1 else (s6.1, 0, [])
  (s7.1,
   s1.2.1 + s2.2.1 + s3.2.1 + s4.2.1 + s5.2.1 + s6.2.1 + s7.2.1,
   s1.2.2 ++ s2.2.2 ++ s3.2.2 ++ s4.2.2 ++ s5.2.2 ++ s6.2.2 ++ s7.2.2 ++
     reportOnlyIssues k s7.1)

/-- `name = k.split("/")[-1].replace(".png", ""); base = re.sub(r'_\d+$', '', name)`
(lines 1180–1181; note: no backslash normalization here). -/
def dupeBase (k : String) : String :=
  ⟨stripTrailingNum (removeSub ".png".data (lastSegment k.data))⟩

/-- Group keys by identical description, preserving first-appearance
order (`defaultdict(list)`, lines 1173–1175). -/
def descGroups (l : List (String × Sprite)) : List (String × List String) :=
  l.foldl
    (fun acc p =>
      if acc.any (fun g => g.1 = p.2.description) then
        acc.map (fun g => if g.1 = p.2.description then (g.1, g.2 ++ [p.1]) else g)
      else acc ++ [(p.2.description, [p.1])])
    []

/-- The duplicate-description report rule (lines 1172–1185). -/
def dupeIssues (l : List (String × Sprite)) : List Issue :=
  (descGroups l).filterMap (fun g =>
    if g.2.length > 1 ∧ (g.2.map dupeBase).dedup.length > 1 then
      some ("DUPE_DESC", String.intercalate ", " g.2)
    else none)

/-- File-level side effects of one `check_atlas` invocation. -/
inductive FileEv where
  | backup
  | write
deriving DecidableEq

/-- Result of one `check_atlas` invocation. -/
structure CheckOutcome where
  catalog : Catalog
  fixes : Nat
  issues : List Issue
  events : List FileEv
deriving DecidableEq

/-- One `check_atlas(atlas, fix=...)` invocation (lines 1072–1198) over a
loaded catalog.  `hasDcss` selects whether the atlas profile carries the
`check_dcss` extra rules.  The `enriched` membership test happens once, at
load; the backup happens before anything else in fix mode (line 1084), and
the save happens once at the end, only in fix mode and only when at least
one fix was applied (lines 1188–1190). -/
def check_atlas_model (hasDcss fix : Bool) (cat : Catalog) : CheckOutcome :=
  let res := cat.map (fun p =>
    if is_enriched p.2 then
      let r := entityCheck hasDcss fix p.1 p.2
      (p.1, r.1, true, r.2.1, r.2.2)
    else (p.1, p.2, false, 0, ([] : List Issue)))
  let fixesApplied := (res.map (fun r => r.2.2.2.1)).sum
  let issues := (res.flatMap (fun r => r.2.2.2.2)) ++
    dupeIssues ((res.filter (fun r => r.2.2.1)).map (fun r => (r.1, r.2.1)))
  ⟨res.map (fun r => (r.1, r.2.1)),
   fixesApplied,
   issues,
   (if fix then [FileEv.backup] else []) ++
     (if fix ∧ fixesApplied ≠ 0 then [FileEv.write] else [])⟩


/-! ## Verify-mode fix application (`verify_atlas`, lines 1011–1057) -/

/-- One element of the verify oracle's fix array.  `junk` covers an element
that is not a dict or that lacks an `"index"` key (line 1013); otherwise
the 1-based index and the three optional replacement fields. -/
inductive FixEntry where
  | junk
  | entry (index : Int) (description : Option String) (tags : Option (List String))
      (tile_type : Option String)
deriving DecidableEq

/-- Apply one fix element (lines 1012–1046): skip junk; skip indices
outside `1..len(valid_keys)`; otherwise mutate the referenced sprite —
description/tile_type only when supplied non-empty and different, tags when
supplied as a non-empty list — then strip the tile_type from the tags, and
count the fix only when one of the three fields actually changed.  (The
referenced key is always present in the catalog when `verify_atlas` runs;
a missing key would raise in Python and is a no-op here.) -/
def verifyNewSprite (d : Option String) (tg : Option (List String))
    (tt : Option String) (old : Sprite) : Sprite :=
  let e1 := match d with
    | some s => if s ≠ "" && s ≠ old.description then { old with description := s } else old
    | none => old
  let e2 := match tg with
    | some l => if !l.isEmpty then { e1 with tags := l } else e1
    | none => e1
  let e3 := match tt with
    | some s => if s ≠ "" && s ≠ old.tile_type then { e2 with tile_type := s } else e2
    | none => e2
  stripTTfromTags e3

/-- Dispatch of one fix element (guards and update; see
`verifyNewSprite` for the field mutations). -/
def verifyApplyOne (validKeys : List String) (cat : Catalog) :
    FixEntry → Catalog × Nat
  | .junk => (cat, 0)
  | .entry index d tg tt =>
    if (index - 1 : Int) < 0 ∨ (index - 1 : Int) ≥ validKeys.length then (cat, 0)
    else
      let k := validKeys.getD (index - 1 : Int).toNat ""
      match lookupCat k cat with
      | none => (cat, 0)
      | some old =>
        (updateCat k (fun _ => verifyNewSprite d tg tt old) cat,
         if verifyNewSprite d tg tt old ≠ old then 1 else 0)

/-- The fix-application loop (lines 1011–1046): elements in order, the
`applied` counter summed. -/
def verifyApplyLoop (validKeys : List String) :
    List FixEntry → Catalog → Catalog × Nat
  | [], cat => (cat, 0)
  | f :: rest, cat =>
    let step := verifyApplyOne validKeys cat f
    let out := verifyApplyLoop validKeys rest step.1
    (out.1, step.2 + out.2)


/-! ## Shared helper lemmas -/

/-- An element occurring at most once is gone after `erase`. -/
theorem not_mem_erase_of_count_le_one {l : List String} {x : String}
    (h : l.count x ≤ 1) : x ∉ l.erase x := by
  intro hm
  have hpos : 0 < (l.erase x).count x := List.count_pos_iff.mpr hm
  have hc := List.count_erase_self x l
  omega

/-- `mergeFields` first combines the supplied fields, then strips. -/
theorem mergeFields_eq_strip (d : Option String) (tg : Option (List String))
    (tt : Option String) (e : Sprite) :
    mergeFields d tg tt e = stripTTfromTags
      ⟨(match d with | some s => if s ≠ "" then s else e.description | none => e.description),
       (match tg with | some l => if l ≠ [] then l else e.tags | none => e.tags),
       (match tt with | some s => if s ≠ "" then s else e.tile_type | none => e.tile_type)⟩ := by
  rcases d with _ | s <;> rcases tg with _ | l <;> rcases tt with _ | t <;>
    simp only [mergeFields] <;> split_ifs <;> rfl

/-- Field-level reading of `stripTTfromTags`. -/
theorem stripTTfromTags_spec (e : Sprite) :
    stripTTfromTags e =
      ⟨e.description,
       if e.tile_type ≠ "" ∧ e.tile_type ∈ e.tags then e.tags.erase e.tile_type else e.tags,
       e.tile_type⟩ := by
  unfold stripTTfromTags
  split <;> simp_all

/-! ## C2 — atomicity of `save_index` -/

/-- C2: the claim "saving the catalog is atomic: either the write completes
fully or the existing catalog file is left unchanged" fails on the code.
`save_index` opens the output with mode `"w"`, which truncates the existing
file before a single character of the new document is written; a failure at
that point leaves an empty file, which is neither the old content nor the
new serialization.  (Evaluation of the model at the failing input.) -/
theorem save_index_torn_write :
    save_index_partial "\x7b\n  \"sprites\": \x7b\x7d\n\x7d\n" 0 = some "" ∧
    (some "" : Option String) ≠ some "\x7b\"sprites\": \x7b\"old\": \x7b\x7d\x7d\x7d" ∧
    (some "" : Option String) ≠ some "\x7b\n  \"sprites\": \x7b\x7d\n\x7d\n" := by
  decide

/-! ## C4 — merge field overwriting -/

/-- C4 counterexample: the claim "after assignment the entity's category
value does not appear in its own tags list" is false as stated.  The strip
uses `list.remove`, which deletes only the first occurrence: a result entry
supplying `tags = ["door", "door"]` and `tile_type = "door"` leaves
`"door"` in the merged tags. -/
theorem mergeFields_dup_tag_cex :
    (mergeFields none (some ["door", "door"]) (some "door")
        ⟨"x", ["wood"], ""⟩).tile_type = "door" ∧
    (mergeFields none (some ["door", "door"]) (some "door")
        ⟨"x", ["wood"], ""⟩).tile_type ∈
      (mergeFields none (some ["door", "door"]) (some "door")
        ⟨"x", ["wood"], ""⟩).tags := by
  decide

/-- C4 (amended): each of description/tags/tile_type is overwritten exactly
when the result entry supplies a non-empty value (an empty or missing value
never clears an existing field); afterwards the first occurrence of the
resulting tile_type is removed from the resulting tags, so the tile_type
does not appear in the tags whenever they contain it at most once. -/
theorem mergeFields_overwrite (d : Option String) (tg : Option (List String))
    (tt : Option String) (e : Sprite) :
    (mergeFields d tg tt e).description =
      (match d with | some s => if s ≠ "" then s else e.description | none => e.description) ∧
    (mergeFields d tg tt e).tile_type =
      (match tt with | some s => if s ≠ "" then s else e.tile_type | none => e.tile_type) ∧
    (mergeFields d tg tt e).tags =
      (let newTags := (match tg with | some l => if l ≠ [] then l else e.tags | none => e.tags)
       let newTT := (match tt with | some s => if s ≠ "" then s else e.tile_type | none => e.tile_type)
       if newTT ≠ "" ∧ newTT ∈ newTags then newTags.erase newTT else newTags) ∧
    (∀ s, tt = some s → s ≠ "" →
      (match tg with | some l => if l ≠ [] then l else e.tags | none => e.tags).count s ≤ 1 →
      s ∉ (mergeFields d tg tt e).tags) := by
  rw [mergeFields_eq_strip, stripTTfromTags_spec]
  refine ⟨rfl, rfl, rfl, ?_⟩
  intro s hs hne hcount
  subst hs
  dsimp only
  rw [if_pos hne]
  by_cases hmem : s ∈ (match tg with | some l => if l ≠ [] then l else e.tags | none => e.tags)
  · rw [if_pos ⟨hne, hmem⟩]
    exact not_mem_erase_of_count_le_one hcount
  · rw [if_neg (fun hc => hmem hc.2)]
    exact hmem

/-- Witness for `mergeFields_overwrite` at a concrete input. -/
theorem mergeFields_overwrite_witness :
    ("door" ∉ (mergeFields (some "a desk") (some ["wood", "door"]) (some "door")
        ⟨"", ["x"], ""⟩).tags) ∧
    (mergeFields (some "a desk") (some ["wood", "door"]) (some "door")
        ⟨"", ["x"], ""⟩).description = "a desk" :=
  ⟨(mergeFields_overwrite (some "a desk") (some ["wood", "door"]) (some "door")
      ⟨"", ["x"], ""⟩).2.2.2 "door" rfl (by decide) (by decide),
   (mergeFields_overwrite (some "a desk") (some ["wood", "door"]) (some "door")
      ⟨"", ["x"], ""⟩).1⟩

/-! ## C8 — response extraction strategy order -/

/-- C8 counterexample: strategy (c) is not "the first balanced JSON array
substring".  The code's greedy regex spans from the first `[` to the last
`]`; on `"[1] and [2]"` that span is not valid JSON and extraction fails,
while the spec's first-balanced-substring strategy extracts `[1]`. -/
theorem extract_balanced_cex :
    extractArrCore "[1] and [2]" = none ∧
    extractArrSpec "[1] and [2]" = some [Json.num "1"] ∧
    extractArrCore "[1] and [2]" ≠ extractArrSpec "[1] and [2]" := by
  refine ⟨rfl, rfl, fun h => ?_⟩
  rw [show extractArrCore "[1] and [2]" = none from rfl,
      show extractArrSpec "[1] and [2]" = some [Json.num "1"] from rfl] at h
  exact Option.noConfusion h

/-- C8 (amended): extraction tries, in order, (a) a direct parse of the
stripped text, (b) the first complete markdown fence's content, and (c) the
greedy span from the first `[` to the last `]`; the first strategy that
yields a JSON array wins and extraction fails only if all three fail.
Stated as equality with the ordered-strategy-list formulation. -/
theorem extract_strategy_order (t : String) :
    extractArrCore t = extractArrSpanned t := by
  unfold extractArrCore extractArrSpanned
  simp only [tryStrategies]
  rcases h1 : directArr (pyStrip t) with _ | l <;>
    rcases h2 : fencedArr (pyStrip t) with _ | l2 <;>
    rcases h3 : spanArr (pyStrip t) with _ | l3 <;> simp [h1, h2, h3]

/-! ## C3 — all-failed batches are skipped -/

/-- If every attempt fails, the retry loop produces nothing. -/
theorem attemptLoop_all_failed (l : List CallOutcome)
    (h : ∀ o ∈ l, attemptFailed o = true) : attemptLoop l = none := by
  induction l with
  | nil => rfl
  | cons o rest ih =>
    have ho := h o (List.mem_cons_self o rest)
    have hrest := ih (fun o' ho' => h o' (List.mem_cons_of_mem o ho'))
    cases o with
    | ok s =>
      simp only [attemptLoop]
      cases hp : parse_ai_response s with
      | none => exact hrest
      | some arr => simp [attemptFailed, hp] at ho
    | timeout => exact hrest
    | transportError => exact hrest
    | exitNonzero => exact hrest

/-- C3: when every oracle attempt for a batch fails (timeout, transport
error, non-zero exit, or unparseable stdout — at most `max_retries = 3`
attempts are consumed), the batch is skipped: the catalog is unchanged, no
checkpoint is written for the batch, and every batch key that was in the
planner's work list is still selected by the next run's planner. -/
theorem failed_batch_skipped (outcomes : List CallOutcome)
    (batchKeys : List String) (cat : Catalog)
    (h : ∀ o ∈ outcomes, attemptFailed o = true) :
    processBatch outcomes batchKeys cat = ⟨cat, false⟩ ∧
    (∀ k ∈ batchKeys, k ∈ orderedTodo cat →
      k ∈ orderedTodo (processBatch outcomes batchKeys cat).catalog) := by
  have hl : attemptLoop (outcomes.take max_retries) = none :=
    attemptLoop_all_failed _ (fun o ho => h o (List.mem_of_mem_take ho))
  refine ⟨?_, ?_⟩
  · simp [processBatch, hl]
  · intro k _ hin
    simpa [processBatch, hl] using hin

/-- Witness for `failed_batch_skipped` at a concrete run: three failing
attempts (a timeout, a non-zero exit, and stdout that is not JSON) leave
the one-sprite catalog untouched and unsaved. -/
theorem failed_batch_skipped_witness :
    (∀ o ∈ [CallOutcome.timeout, CallOutcome.exitNonzero, CallOutcome.ok "oops"],
      attemptFailed o = true) ∧
    processBatch [CallOutcome.timeout, CallOutcome.exitNonzero, CallOutcome.ok "oops"]
        ["a/x.png"] [("a/x.png", ⟨"", [], ""⟩)]
      = ⟨[("a/x.png", ⟨"", [], ""⟩)], false⟩ :=
  ⟨by decide,
   (failed_batch_skipped [CallOutcome.timeout, CallOutcome.exitNonzero, CallOutcome.ok "oops"]
      ["a/x.png"] [("a/x.png", ⟨"", [], ""⟩)] (by decide)).1⟩

/-! ## C5 — positional application of short/long result arrays -/

/-- Zipping ignores everything of the right list beyond the left length. -/
theorem zip_take_self (l1 : List α) (l2 : List β) :
    l1.zip (l2.take l1.length) = l1.zip l2 := by
  induction l1 generalizing l2 with
  | nil => rfl
  | cons a as ih =>
    cases l2 with
    | nil => rfl
    | cons b bs => simpa [List.zip_cons_cons] using ih bs

/-- The keys touched by the zip are the prefix up to the entry count. -/
theorem map_fst_zip_take (l1 : List α) (l2 : List β) :
    (l1.zip l2).map Prod.fst = l1.take l2.length := by
  induction l1 generalizing l2 with
  | nil => simp
  | cons a as ih =>
    cases l2 with
    | nil => rfl
    | cons b bs => simpa [List.zip_cons_cons] using ih bs

/-- `updateCat` leaves other keys alone. -/
theorem lookupCat_updateCat_ne {k k' : String} (f : Sprite → Sprite)
    (cat : Catalog) (h : k ≠ k') :
    lookupCat k (updateCat k' f cat) = lookupCat k cat := by
  induction cat with
  | nil => rfl
  | cons p rest ih =>
    simp only [updateCat, List.map_cons]
    by_cases hp : p.1 = k'
    · have hne : ¬p.1 = k := by rw [hp]; exact fun hc => h hc.symm
      rw [if_pos hp]
      simp only [lookupCat, if_neg hne]
      simpa [updateCat] using ih
    · rw [if_neg hp]
      simp only [lookupCat]
      by_cases hk : p.1 = k
      · rw [if_pos hk, if_pos hk]
      · rw [if_neg hk, if_neg hk]
        simpa [updateCat] using ih

/-- `updateCat` rewrites the stored sprite through `f`. -/
theorem lookupCat_updateCat_self (k : String) (f : Sprite → Sprite)
    (cat : Catalog) :
    lookupCat k (updateCat k f cat) = (lookupCat k cat).map f := by
  induction cat with
  | nil => rfl
  | cons p rest ih =>
    simp only [updateCat, List.map_cons]
    by_cases hp : p.1 = k
    · rw [if_pos hp]
      simp only [lookupCat, if_pos hp]
      rfl
    · rw [if_neg hp]
      simp only [lookupCat, if_neg hp]
      simpa [updateCat] using ih

/-- The merge loop does not touch keys outside its pair list. -/
theorem mergeLoop_lookup_not_mem (pairs : List (String × MergeEntry))
    (cat : Catalog) (k : String) (h : k ∉ pairs.map Prod.fst) :
    lookupCat k (mergeLoop pairs cat).1 = lookupCat k cat := by
  induction pairs generalizing cat with
  | nil => rfl
  | cons p rest ih =>
    have hk : k ≠ p.1 := fun hc => h (by simp [hc])
    have hrest : k ∉ rest.map Prod.fst := fun hc => h (by simp [hc])
    obtain ⟨k', me⟩ := p
    cases me with
    | junk => exact ih cat hrest
    | fields d tg tt =>
      simp only [mergeLoop]
      rw [ih _ hrest, lookupCat_updateCat_ne _ _ hk]

/-- Positional characterization of the merge loop under distinct keys. -/
theorem mergeLoop_lookup_get (pairs : List (String × MergeEntry))
    (cat : Catalog) (hnd : (pairs.map Prod.fst).Nodup)
    (i : Nat) (hi : i < pairs.length) :
    lookupCat (pairs.get ⟨i, hi⟩).1 (mergeLoop pairs cat).1 =
      (lookupCat (pairs.get ⟨i, hi⟩).1 cat).map (applyEntry (pairs.get ⟨i, hi⟩).2) := by
  induction pairs generalizing cat i with
  | nil => exact absurd hi (by simp)
  | cons p rest ih =>
    obtain ⟨k', me⟩ := p
    simp only [List.map_cons, List.nodup_cons] at hnd
    cases i with
    | zero =>
      have hnm : k' ∉ rest.map Prod.fst := hnd.1
      cases me with
      | junk =>
        simp only [List.get, mergeLoop, applyEntry]
        rw [mergeLoop_lookup_not_mem rest cat k' hnm]
        cases lookupCat k' cat <;> rfl
      | fields d tg tt =>
        simp only [List.get, mergeLoop, applyEntry]
        rw [mergeLoop_lookup_not_mem rest _ k' hnm, lookupCat_updateCat_self]
        cases lookupCat k' cat <;> rfl
    | succ j =>
      have hj : j < rest.length := by simpa using hi
      cases me with
      | junk => exact ih cat hnd.2 j hj
      | fields d tg tt =>
        simp only [List.get, mergeLoop]
        rw [ih (updateCat k' (mergeFields d tg tt) cat) hnd.2 j hj]
        have hkk : (rest.get ⟨j, hj⟩).1 ≠ k' := by
          intro hc
          exact hnd.1 (hc ▸ List.mem_map.mpr
            ⟨rest.get ⟨j, hj⟩, List.get_mem rest j hj, rfl⟩)
        rw [lookupCat_updateCat_ne _ _ hkk]

/-- C5: result arrays are matched to batch keys strictly by position —
excess entries beyond the batch length have no effect, keys beyond the
array length (and any key outside the matched prefix) are untouched, and
with distinct batch keys the i-th entry rewrites exactly the i-th key's
sprite. -/
theorem merge_positional (keys : List String) (cat : Catalog)
    (entries : List MergeEntry) :
    (mergeBatch keys cat entries = mergeBatch keys cat (entries.take keys.length)) ∧
    (∀ k, k ∉ keys.take entries.length →
      lookupCat k (mergeBatch keys cat entries).1 = lookupCat k cat) ∧
    (keys.Nodup → ∀ i (hik : i < keys.length) (hie : i < entries.length),
      lookupCat (keys.get ⟨i, hik⟩) (mergeBatch keys cat entries).1 =
        (lookupCat (keys.get ⟨i, hik⟩) cat).map (applyEntry (entries.get ⟨i, hie⟩))) := by
  refine ⟨by rw [mergeBatch, mergeBatch, zip_take_self], ?_, ?_⟩
  · intro k hk
    exact mergeLoop_lookup_not_mem _ _ _ (by rwa [map_fst_zip_take])
  · intro hnd i hik hie
    have hlen : i < (keys.zip entries).length := by
      rw [List.length_zip]; omega
    have hnd' : ((keys.zip entries).map Prod.fst).Nodup := by
      rw [map_fst_zip_take]
      exact (List.take_sublist _ _).nodup hnd
    have := mergeLoop_lookup_get (keys.zip entries) cat hnd' i hlen
    simp only [List.get_eq_getElem, List.getElem_zip] at this
    simpa [mergeBatch, List.get_eq_getElem] using this

/-- Witness for `merge_positional`: a batch of two keys with a one-entry
array leaves the second sprite untouched and rewrites the first. -/
theorem merge_positional_witness :
    ("b/y.png" ∉ ["a/x.png", "b/y.png"].take 1) ∧
    lookupCat "b/y.png"
      (mergeBatch ["a/x.png", "b/y.png"]
        [("a/x.png", ⟨"", [], ""⟩), ("b/y.png", ⟨"", [], ""⟩)]
        [.fields (some "d") (some ["t"]) (some "c")]).1
      = lookupCat "b/y.png"
          [("a/x.png", ⟨"", [], ""⟩), ("b/y.png", ⟨"", [], ""⟩)] :=
  ⟨by decide,
   (merge_positional ["a/x.png", "b/y.png"]
      [("a/x.png", ⟨"", [], ""⟩), ("b/y.png", ⟨"", [], ""⟩)]
      [.fields (some "d") (some ["t"]) (some "c")]).2.1 "b/y.png" (by decide)⟩

/-! ## C10 — verify-mode fix application safety -/

/-- C10: per-element safety of the verify fix loop: non-dict elements and
elements without an `"index"` key are skipped with no effect; indices
outside `1..len(valid_keys)` are ignored with no mutation; an applied
element touches only the sprite at its referenced position; and a fix is
counted only when one of description/tags/tile_type actually changed. -/
theorem verify_apply_safety (keys : List String) (cat : Catalog) :
    (∀ rest, verifyApplyLoop keys (.junk :: rest) cat = verifyApplyLoop keys rest cat) ∧
    (∀ idx d tg tt rest, idx < 1 ∨ idx > keys.length →
      verifyApplyLoop keys (.entry idx d tg tt :: rest) cat =
        verifyApplyLoop keys rest cat) ∧
    (∀ idx d tg tt k', k' ≠ keys.getD (idx - 1).toNat "" →
      lookupCat k' (verifyApplyOne keys cat (.entry idx d tg tt)).1 =
        lookupCat k' cat) ∧
    (∀ idx d tg tt, (verifyApplyOne keys cat (.entry idx d tg tt)).2 ≠ 0 →
      1 ≤ idx ∧ idx ≤ keys.length ∧
      lookupCat (keys.getD (idx - 1).toNat "")
          (verifyApplyOne keys cat (.entry idx d tg tt)).1 ≠
        lookupCat (keys.getD (idx - 1).toNat "") cat) := by
  have hone : verifyApplyOne keys cat .junk = (cat, 0) := rfl
  refine ⟨?_, ?_, ?_, ?_⟩
  · intro rest
    simp [verifyApplyLoop, hone]
  · intro idx d tg tt rest h
    have hskip : verifyApplyOne keys cat (.entry idx d tg tt) = (cat, 0) := by
      simp only [verifyApplyOne]
      rw [if_pos]
      rcases h with h | h
      · left; omega
      · right; omega
    simp [verifyApplyLoop, hskip]
  · intro idx d tg tt k' hk
    simp only [verifyApplyOne]
    split
    · rfl
    · cases hl : lookupCat (keys.getD (idx - 1).toNat "") cat with
      | none => rfl
      | some old =>
        simp only
        exact lookupCat_updateCat_ne _ _ hk
  · intro idx d tg tt hcount
    by_cases hrange : ((idx - 1 : Int) < 0 ∨ (idx - 1 : Int) ≥ (keys.length : Int))
    · rw [verifyApplyOne, if_pos hrange] at hcount
      exact absurd rfl hcount
    · have h1 : 1 ≤ idx := by
        by_contra hc
        exact hrange (Or.inl (by omega))
      have h2 : idx ≤ keys.length := by
        by_contra hc
        exact hrange (Or.inr (by omega))
      refine ⟨h1, h2, ?_⟩
      rw [verifyApplyOne, if_neg hrange] at hcount ⊢
      dsimp only at hcount ⊢
      cases hl : lookupCat (keys.getD (idx - 1).toNat "") cat with
      | none =>
        rw [hl] at hcount
        exact absurd rfl hcount
      | some old =>
        rw [hl] at hcount
        rw [lookupCat_updateCat_self, hl]
        have hcount' : (if verifyNewSprite d tg tt old ≠ old then (1 : Nat) else 0) ≠ 0 :=
          hcount
        by_cases hch : verifyNewSprite d tg tt old ≠ old
        · intro hc
          exact hch (Option.some.inj hc)
        · rw [if_neg hch] at hcount'
          exact absurd rfl hcount' 

/-- Witness for `verify_apply_safety`: a fix for position 2 leaves the
sprite under the other key untouched. -/
theorem verify_apply_safety_witness :
    ("a" : String) ≠ ["a", "b"].getD ((2 : Int) - 1).toNat "" ∧
    lookupCat "a"
      (verifyApplyOne ["a", "b"]
        [("a", ⟨"d1", ["t"], "x"⟩), ("b", ⟨"d2", ["u"], "y"⟩)]
        (.entry 2 (some "new") none none)).1 =
      lookupCat "a" [("a", ⟨"d1", ["t"], "x"⟩), ("b", ⟨"d2", ["u"], "y"⟩)] :=
  ⟨by decide,
   (verify_apply_safety ["a", "b"]
      [("a", ⟨"d1", ["t"], "x"⟩), ("b", ⟨"d2", ["u"], "y"⟩)]).2.2.1
     2 (some "new") none none "a" (by decide)⟩

/-! ## C1/C9 — batch planner lemmas -/

/-- Totality of the lexicographic comparison. -/
theorem lexLeChars_total (a b : List Char) :
    lexLeChars a b = true ∨ lexLeChars b a = true := by
  induction a generalizing b with
  | nil => left; rfl
  | cons x xs ih =>
    cases b with
    | nil => right; rfl
    | cons y ys =>
      simp only [lexLeChars]
      rcases Nat.lt_trichotomy x.toNat y.toNat with h | h | h
      · left; rw [if_pos h]
      · rw [if_neg (by omega), if_neg (by omega), if_neg (by omega), if_neg (by omega)]
        exact ih ys
      · right; rw [if_pos h]

/-- Transitivity of the lexicographic comparison. -/
theorem lexLeChars_trans {a b c : List Char} (hab : lexLeChars a b = true)
    (hbc : lexLeChars b c = true) : lexLeChars a c = true := by
  induction a generalizing b c with
  | nil => rfl
  | cons x xs ih =>
    cases b with
    | nil => exact absurd hab (by simp [lexLeChars])
    | cons y ys =>
      cases c with
      | nil => exact absurd hbc (by simp [lexLeChars])
      | cons z zs =>
        simp only [lexLeChars] at hab hbc ⊢
        rcases Nat.lt_trichotomy x.toNat y.toNat with hxy | hxy | hxy
        · rcases Nat.lt_trichotomy y.toNat z.toNat with hyz | hyz | hyz
          · rw [if_pos (by omega)]
          · rw [if_pos (by omega)]
          · rw [if_neg (by omega)] at hbc
            rw [if_pos hyz] at hbc
            exact absurd hbc (by simp)
        · rcases Nat.lt_trichotomy y.toNat z.toNat with hyz | hyz | hyz
          · rw [if_pos (by omega)]
          · rw [if_neg (by omega), if_neg (by omega)]
            rw [if_neg (by omega), if_neg (by omega)] at hab
            rw [if_neg (by omega), if_neg (by omega)] at hbc
            exact ih hab hbc
          · rw [if_neg (by omega)] at hbc
            rw [if_pos hyz] at hbc
            exact absurd hbc (by simp)
        · rw [if_neg (by omega)] at hab
          rw [if_pos hxy] at hab
          exact absurd hab (by simp)

instance : IsTotal String strLeR := ⟨fun a b => lexLeChars_total a.data b.data⟩

instance : IsTrans String strLeR := ⟨fun _ _ _ hab hbc => lexLeChars_trans hab hbc⟩

/-- `pySorted` output is sorted. -/
theorem pySorted_sorted (l : List String) : List.Sorted strLeR (pySorted l) :=
  List.sorted_insertionSort strLeR l

/-- `pySorted` is a permutation of its input. -/
theorem pySorted_perm (l : List String) : (pySorted l).Perm l :=
  List.perm_insertionSort strLeR l

/-- The chunker flattens back to its input. -/
theorem chunksGo_flatten (B : Nat) (_hB : 1 ≤ B) :
    ∀ fuel (l : List α), l.length ≤ fuel → (chunksGo B fuel l).flatten = l := by
  intro fuel
  induction fuel with
  | zero =>
    intro l hl
    cases l with
    | nil => rfl
    | cons x xs => simp only [List.length_cons] at hl; omega
  | succ f ih =>
    intro l hl
    cases l with
    | nil => rfl
    | cons x xs =>
      simp only [chunksGo, List.flatten_cons]
      rw [ih (xs.drop (B - 1))
        (by simp only [List.length_drop]; simp only [List.length_cons] at hl; omega)]
      simp [List.take_append_drop]

/-- The chunk count is the ceiling of the length over `B`. -/
theorem chunksGo_length (B : Nat) (hB : 1 ≤ B) :
    ∀ fuel (l : List α), l.length ≤ fuel →
      (chunksGo B fuel l).length = (l.length + B - 1) / B := by
  intro fuel
  induction fuel with
  | zero =>
    intro l hl
    cases l with
    | nil => simp [chunksGo, Nat.div_eq_of_lt (show B - 1 < B by omega)]
    | cons x xs => simp only [List.length_cons] at hl; omega
  | succ f ih =>
    intro l hl
    cases l with
    | nil => simp [chunksGo, Nat.div_eq_of_lt (show B - 1 < B by omega)]
    | cons x xs =>
      simp only [chunksGo, List.length_cons]
      rw [ih (xs.drop (B - 1))
        (by simp only [List.length_drop]; simp only [List.length_cons] at hl; omega)]
      rw [List.length_drop]
      rcases Nat.le_total (B - 1) xs.length with h | h
      · have h1 : xs.length - (B - 1) + B - 1 = xs.length := by omega
        have h2 : xs.length + 1 + B - 1 = xs.length + B := by omega
        rw [h1, h2, Nat.add_div_right _ (by omega : 0 < B)]
      · have h1 : xs.length - (B - 1) + B - 1 = B - 1 := by omega
        have h2 : xs.length + 1 + B - 1 = xs.length + B := by omega
        rw [h1, h2, Nat.add_div_right _ (by omega : 0 < B),
          Nat.div_eq_of_lt (by omega : B - 1 < B),
          Nat.div_eq_of_lt (by omega : xs.length < B)]

/-- Chunks never exceed the batch size. -/
theorem chunksGo_size (B : Nat) (hB : 1 ≤ B) :
    ∀ fuel (l : List α), ∀ c ∈ chunksGo B fuel l, c.length ≤ B := by
  intro fuel
  induction fuel with
  | zero => intro l c hc; cases l <;> simp [chunksGo] at hc
  | succ f ih =>
    intro l c hc
    cases l with
    | nil => simp [chunksGo] at hc
    | cons x xs =>
      simp only [chunksGo, List.mem_cons] at hc
      rcases hc with rfl | hc
      · simp only [List.length_cons, List.length_take]
        omega
      · exact ih _ c hc

/-- Chunks are never empty. -/
theorem chunksGo_nonempty (B : Nat) :
    ∀ fuel (l : List α), ∀ c ∈ chunksGo B fuel l, c ≠ [] := by
  intro fuel
  induction fuel with
  | zero => intro l c hc; cases l <;> simp [chunksGo] at hc
  | succ f ih =>
    intro l c hc
    cases l with
    | nil => simp [chunksGo] at hc
    | cons x xs =>
      simp only [chunksGo, List.mem_cons] at hc
      rcases hc with rfl | hc
      · simp
      · exact ih _ c hc

/-- Chunking the empty list gives no chunks, for any fuel. -/
theorem chunksGo_nil (B : Nat) (fuel : Nat) :
    chunksGo B fuel ([] : List α) = [] := by
  cases fuel <;> rfl

/-- Every chunk except the last has exactly `B` elements. -/
theorem chunksGo_size_exact (B : Nat) (hB : 1 ≤ B) :
    ∀ fuel (l : List α) (i : Nat) (hi : i < (chunksGo B fuel l).length),
      i + 1 < (chunksGo B fuel l).length →
      ((chunksGo B fuel l).get ⟨i, hi⟩).length = B := by
  intro fuel
  induction fuel with
  | zero => intro l i hi hlt; cases l <;> simp [chunksGo] at hi
  | succ f ih =>
    intro l i hi hlt
    cases l with
    | nil => simp [chunksGo] at hi
    | cons x xs =>
      cases i with
      | zero =>
        simp only [chunksGo, List.length_cons] at hlt ⊢
        have hne : chunksGo B f (xs.drop (B - 1)) ≠ [] := by
          intro hc
          rw [hc] at hlt
          simp at hlt
        have hdrop : xs.drop (B - 1) ≠ [] := by
          intro hc
          exact hne (by rw [hc, chunksGo_nil])
        have hlen : B - 1 < xs.length := by
          by_contra hc
          exact hdrop (List.drop_eq_nil_of_le (by omega))
        simp only [List.get, List.length_cons, List.length_take]
        omega
      | succ j =>
        simp only [chunksGo] at hi hlt ⊢
        exact ih _ j (by simpa using hi) (by simpa using hlt)

/-- The planner's ordering of the work list, as the claim states it:
lexicographic on the group, then lexicographic on the key. -/
def plannerOrder (a b : String) : Prop :=
  strLtB (groupOfKey a) (groupOfKey b) = true ∨
    (groupOfKey a = groupOfKey b ∧ strLeR a b)

/-- The todo keys are distinct when the catalog keys are. -/
theorem todoKeys_nodup {cat : Catalog} (hnd : (cat.map Prod.fst).Nodup) :
    (todoKeys cat).Nodup :=
  (((List.filter_sublist cat).map Prod.fst)).nodup hnd

/-- Membership in the todo list is exactly un-enrichment. -/
theorem mem_todoKeys {cat : Catalog} {k : String} :
    k ∈ todoKeys cat ↔ ∃ e, (k, e) ∈ cat ∧ is_enriched e = false := by
  constructor
  · intro hk
    obtain ⟨p, hp, rfl⟩ := List.mem_map.mp hk
    obtain ⟨hmem, hfilter⟩ := List.mem_filter.mp hp
    exact ⟨p.2, hmem, by simpa using hfilter⟩
  · rintro ⟨e, he, hen⟩
    exact List.mem_map.mpr ⟨(k, e), List.mem_filter.mpr ⟨he, by simp [hen]⟩, rfl⟩

/-- Keys in a group slice carry that group. -/
theorem group_of_mem_slice {todo : List String} {p k : String}
    (hk : k ∈ pySorted (todo.filter (fun x => groupOfKey x = p))) :
    groupOfKey k = p ∧ k ∈ todo := by
  have hk' := (pySorted_perm _).mem_iff.mp hk
  obtain ⟨hmem, hp⟩ := List.mem_filter.mp hk'
  exact ⟨by simpa using hp, hmem⟩

/-- Groups whose prefix is absent contribute no occurrences. -/
theorem count_flatMap_groups_zero (todo : List String) (k : String)
    (ps : List String) (h : groupOfKey k ∉ ps) :
    (ps.flatMap (fun p => pySorted (todo.filter (fun x => groupOfKey x = p)))).count k
      = 0 := by
  induction ps with
  | nil => rfl
  | cons p ps' ih =>
    simp only [List.flatMap_cons, List.count_append]
    rw [ih (fun hc => h (List.mem_cons_of_mem _ hc))]
    have : k ∉ pySorted (todo.filter (fun x => groupOfKey x = p)) := by
      intro hc
      exact h ((group_of_mem_slice hc).1 ▸ List.mem_cons_self p ps')
    rw [List.count_eq_zero.mpr this]

/-- Grouping then concatenating preserves multiplicities. -/
theorem count_flatMap_groups (todo : List String) (k : String)
    (ps : List String) (hnd : ps.Nodup) (hmem : k ∈ todo → groupOfKey k ∈ ps) :
    (ps.flatMap (fun p => pySorted (todo.filter (fun x => groupOfKey x = p)))).count k
      = todo.count k := by
  induction ps with
  | nil =>
    have : k ∉ todo := fun hc => by simpa using hmem hc
    simp [List.count_eq_zero.mpr this]
  | cons p ps' ih =>
    simp only [List.flatMap_cons, List.count_append]
    simp only [List.nodup_cons] at hnd
    by_cases hg : groupOfKey k = p
    · rw [(pySorted_perm _).count_eq, List.count_filter (by simp [hg]),
        count_flatMap_groups_zero _ _ _ (hg ▸ hnd.1), Nat.add_zero]
    · have hzero : k ∉ pySorted (todo.filter (fun x => groupOfKey x = p)) := by
        intro hc
        exact hg (group_of_mem_slice hc).1
      rw [List.count_eq_zero.mpr hzero, Nat.zero_add]
      refine ih hnd.2 (fun hk => ?_)
      rcases List.mem_cons.mp (hmem hk) with hc | hc
      · exact absurd hc hg
      · exact hc

/-- The planner's ordered work list is a permutation of the todo keys. -/
theorem orderedTodo_perm (cat : Catalog) :
    (orderedTodo cat).Perm (todoKeys cat) := by
  refine List.perm_iff_count.mpr (fun k => ?_)
  refine count_flatMap_groups _ _ _ ?_ ?_
  · exact (pySorted_perm _).nodup_iff.mpr (List.nodup_dedup _)
  · intro hk
    exact (pySorted_perm _).mem_iff.mpr (List.mem_dedup.mpr (List.mem_map_of_mem _ hk))

/-- The planner's ordered work list is sorted by (group, key). -/
theorem orderedTodo_sorted (cat : Catalog) :
    List.Sorted plannerOrder (orderedTodo cat) := by
  unfold orderedTodo List.Sorted
  rw [List.flatMap_def, List.pairwise_flatten]
  set todo := todoKeys cat with htodo
  set ps := pySorted (todo.map groupOfKey).dedup with hps
  refine ⟨?_, ?_⟩
  · intro l hl
    obtain ⟨p, _, rfl⟩ := List.mem_map.mp hl
    refine List.Pairwise.imp_of_mem ?_ (pySorted_sorted _)
    intro a b ha hb hab
    exact Or.inr ⟨(group_of_mem_slice ha).1.trans (group_of_mem_slice hb).1.symm, hab⟩
  · have hpair : ps.Pairwise (fun p q => strLeR p q ∧ p ≠ q) :=
      (pySorted_sorted _).and ((pySorted_perm _).nodup_iff.mpr (List.nodup_dedup _))
    rw [List.pairwise_map]
    refine hpair.imp_of_mem ?_
    intro p q _ _ hpq x hx y hy
    left
    have hgx := (group_of_mem_slice hx).1
    have hgy := (group_of_mem_slice hy).1
    rw [hgx, hgy]
    simp only [strLtB, Bool.and_eq_true, Bool.not_eq_true', decide_eq_false_iff_not]
    exact ⟨hpq.1, hpq.2⟩

/-- C1: for batch size `B ≥ 1` and no limit cap, the planner selects
exactly the unenriched entities, orders them by group prefix then key
(both lexicographic), and slices the ordered list into `ceil(N/B)` batches
of size ≤ `B`; every unenriched entity is in exactly one batch and no
enriched entity is in any. -/
theorem batch_planner_correct (B : Nat) (cat : Catalog)
    (hB : 1 ≤ B) (hnd : (cat.map Prod.fst).Nodup) :
    (planBatches B cat).length =
      ((cat.filter (fun p => !is_enriched p.2)).length + B - 1) / B ∧
    (∀ b ∈ planBatches B cat, b.length ≤ B) ∧
    (planBatches B cat).flatten = orderedTodo cat ∧
    (∀ k, k ∈ (planBatches B cat).flatten ↔
      ∃ e, (k, e) ∈ cat ∧ is_enriched e = false) ∧
    (∀ k ∈ (planBatches B cat).flatten, ((planBatches B cat).flatten).count k = 1) ∧
    List.Sorted plannerOrder (orderedTodo cat) := by
  have hflat : (planBatches B cat).flatten = orderedTodo cat :=
    chunksGo_flatten B hB (orderedTodo cat).length (orderedTodo cat) le_rfl
  have hperm := orderedTodo_perm cat
  refine ⟨?_, ?_, hflat, ?_, ?_, orderedTodo_sorted cat⟩
  · rw [planBatches, chunksOf, chunksGo_length B hB _ _ le_rfl, hperm.length_eq]
    simp [todoKeys]
  · exact fun b hb => chunksGo_size B hB _ _ b hb
  · intro k
    rw [hflat, hperm.mem_iff, mem_todoKeys]
  · intro k hk
    rw [hflat] at hk ⊢
    rw [hperm.count_eq]
    exact List.count_eq_one_of_mem (todoKeys_nodup hnd) (hperm.mem_iff.mp hk)

/-- Witness for `batch_planner_correct`: a three-sprite catalog (one
enriched) at batch size 2 gives one batch. -/
theorem batch_planner_correct_witness :
    (1 ≤ 2 ∧
      ([("b/y.png", (⟨"", [], ""⟩ : Sprite)), ("a/x.png", ⟨"d", ["t"], "c"⟩),
        ("a/z.png", ⟨"", [], ""⟩)].map Prod.fst).Nodup) ∧
    (planBatches 2 [("b/y.png", ⟨"", [], ""⟩), ("a/x.png", ⟨"d", ["t"], "c"⟩),
        ("a/z.png", ⟨"", [], ""⟩)]).length =
      (([("b/y.png", (⟨"", [], ""⟩ : Sprite)), ("a/x.png", ⟨"d", ["t"], "c"⟩),
        ("a/z.png", ⟨"", [], ""⟩)].filter (fun p => !is_enriched p.2)).length + 2 - 1) / 2 :=
  ⟨⟨by decide, by decide⟩,
   (batch_planner_correct 2 _ (by decide) (by decide)).1⟩

/-- C9 counterexample: batches do not respect group boundaries.  Two
unenriched sprites in different prefix groups with batch size 2 end up in
the same batch. -/
theorem batch_crosses_groups_cex :
    planBatches 2 [("a/x.png", ⟨"", [], ""⟩), ("b/y.png", ⟨"", [], ""⟩)]
      = [["a/x.png", "b/y.png"]] ∧
    groupOfKey "a/x.png" ≠ groupOfKey "b/y.png" := by
  decide

/-- C9 (amended): the planner slices the single concatenated group-ordered
work list into consecutive batches (so a batch may span a group boundary);
every batch is non-empty, every batch except the last has exactly `B`
entities, and the batches concatenate back to the ordered work list. -/
theorem batch_slices_consecutive (B : Nat) (cat : Catalog) (hB : 1 ≤ B) :
    (planBatches B cat).flatten = orderedTodo cat ∧
    (∀ b ∈ planBatches B cat, b ≠ []) ∧
    (∀ i (hi : i < (planBatches B cat).length),
      i + 1 < (planBatches B cat).length →
      ((planBatches B cat).get ⟨i, hi⟩).length = B) :=
  ⟨chunksGo_flatten B hB (orderedTodo cat).length (orderedTodo cat) le_rfl,
   fun b hb => chunksGo_nonempty B _ _ b hb,
   fun i hi hlt => chunksGo_size_exact B hB _ _ i hi hlt⟩

/-- Witness for `batch_slices_consecutive`: five unenriched sprites at
batch size 2 give slices [2, 2, 1]. -/
theorem batch_slices_consecutive_witness :
    (1 ≤ 2) ∧
    (planBatches 2 [("g/a.png", (⟨"", [], ""⟩ : Sprite)), ("g/b.png", ⟨"", [], ""⟩),
        ("g/c.png", ⟨"", [], ""⟩), ("g/d.png", ⟨"", [], ""⟩),
        ("g/e.png", ⟨"", [], ""⟩)]).flatten =
      orderedTodo [("g/a.png", ⟨"", [], ""⟩), ("g/b.png", ⟨"", [], ""⟩),
        ("g/c.png", ⟨"", [], ""⟩), ("g/d.png", ⟨"", [], ""⟩),
        ("g/e.png", ⟨"", [], ""⟩)] :=
  ⟨by decide,
   (batch_slices_consecutive 2 _ (by decide)).1⟩

/-! ## C7 — report mode mutates nothing; fix mode writes once at the end -/

@[simp] theorem ruleStripTT_report_fst (k : String) (e : Sprite) :
    (ruleStripTT false k e).1 = e := by
  unfold ruleStripTT; split <;> rfl

@[simp] theorem ruleStripTT_report_cnt (k : String) (e : Sprite) :
    (ruleStripTT false k e).2.1 = 0 := by
  unfold ruleStripTT; split <;> rfl

@[simp] theorem ruleTagSpell_report_fst (k : String) (e : Sprite) :
    (ruleTagSpell false k e).1 = e := by
  unfold ruleTagSpell
  split
  · simp_all
  · dsimp only
    split <;> rfl

@[simp] theorem ruleTagSpell_report_cnt (k : String) (e : Sprite) :
    (ruleTagSpell false k e).2.1 = 0 := by
  unfold ruleTagSpell
  split
  · simp_all
  · dsimp only
    split <;> rfl

@[simp] theorem ruleDescSpell_report_fst (k : String) (e : Sprite) :
    (ruleDescSpell false k e).1 = e := by
  unfold ruleDescSpell
  split
  · simp_all
  · dsimp only
    split <;> rfl

@[simp] theorem ruleDescSpell_report_cnt (k : String) (e : Sprite) :
    (ruleDescSpell false k e).2.1 = 0 := by
  unfold ruleDescSpell
  split
  · simp_all
  · dsimp only
    split <;> rfl

@[simp] theorem ruleCreature_report_fst (k : String) (e : Sprite) :
    (ruleCreature false k e).1 = e := by
  unfold ruleCreature; split <;> rfl

@[simp] theorem ruleCreature_report_cnt (k : String) (e : Sprite) :
    (ruleCreature false k e).2.1 = 0 := by
  unfold ruleCreature; split <;> rfl

@[simp] theorem ruleAltarStrip_report_fst (k : String) (e : Sprite) :
    (ruleAltarStrip false k e).1 = e := by
  unfold ruleAltarStrip; split <;> rfl

@[simp] theorem ruleAltarStrip_report_cnt (k : String) (e : Sprite) :
    (ruleAltarStrip false k e).2.1 = 0 := by
  unfold ruleAltarStrip; split <;> rfl

@[simp] theorem ruleAltarAlign_report_fst (k : String) (e : Sprite) :
    (ruleAltarAlign false k e).1 = e := by
  unfold ruleAltarAlign
  split
  · dsimp only
    split <;> rfl
  · rfl

@[simp] theorem ruleAltarAlign_report_cnt (k : String) (e : Sprite) :
    (ruleAltarAlign false k e).2.1 = 0 := by
  unfold ruleAltarAlign
  split
  · dsimp only
    split <;> rfl
  · rfl

/-- In report mode the directory fold only accumulates issues. -/
theorem dirStep_fold_report (k norm tt : String)
    (l : List (String × List String)) :
    ∀ acc : Sprite × Nat × List Issue,
      (l.foldl (dirStep false k norm tt) acc).1 = acc.1 ∧
      (l.foldl (dirStep false k norm tt) acc).2.1 = acc.2.1 := by
  induction l with
  | nil => exact fun acc => ⟨rfl, rfl⟩
  | cons pe rest ih =>
    intro acc
    have hstep : (dirStep false k norm tt acc pe).1 = acc.1 ∧
        (dirStep false k norm tt acc pe).2.1 = acc.2.1 := by
      unfold dirStep
      dsimp only
      split_ifs <;> simp_all
    simp only [List.foldl_cons]
    refine ⟨?_, ?_⟩
    · rw [(ih _).1, hstep.1]
    · rw [(ih _).2, hstep.2]

@[simp] theorem ruleDirTags_report_fst (k : String) (e : Sprite) :
    (ruleDirTags false k e).1 = e :=
  (dirStep_fold_report k (normKey k) e.tile_type DIR_EXPECTED_TAGS (e, 0, [])).1

@[simp] theorem ruleDirTags_report_cnt (k : String) (e : Sprite) :
    (ruleDirTags false k e).2.1 = 0 :=
  (dirStep_fold_report k (normKey k) e.tile_type DIR_EXPECTED_TAGS (e, 0, [])).2

/-- In report mode the whole per-entity pipeline mutates nothing and
counts no fix. -/
theorem entityCheck_report (hasDcss : Bool) (k : String) (e : Sprite) :
    (entityCheck hasDcss false k e).1 = e ∧
    (entityCheck hasDcss false k e).2.1 = 0 := by
  cases hasDcss <;> simp [entityCheck]

/-- C7: in report mode the consistency engine mutates no entity and never
writes the catalog; in fix mode the event trace is exactly a backup first
and then at most one write, the write happening exactly when at least one
fix was applied. -/
theorem check_modes_frame (hasDcss : Bool) (cat : Catalog) :
    ((check_atlas_model hasDcss false cat).catalog = cat ∧
     (check_atlas_model hasDcss false cat).events = []) ∧
    ((check_atlas_model hasDcss true cat).events =
      FileEv.backup ::
        (if (check_atlas_model hasDcss true cat).fixes ≠ 0 then [FileEv.write] else [])) ∧
    ((check_atlas_model hasDcss true cat).events.count FileEv.write ≤ 1) ∧
    (FileEv.write ∈ (check_atlas_model hasDcss true cat).events ↔
      (check_atlas_model hasDcss true cat).fixes ≠ 0) := by
  have hev : (check_atlas_model hasDcss true cat).events =
      FileEv.backup ::
        (if (check_atlas_model hasDcss true cat).fixes ≠ 0 then [FileEv.write] else []) := by
    simp [check_atlas_model]
  refine ⟨⟨?_, ?_⟩, hev, ?_, ?_⟩
  · show (cat.map _).map _ = cat
    rw [List.map_map]
    refine (List.map_congr_left ?_).trans (List.map_id cat)
    intro p _
    by_cases h : is_enriched p.2
    · simp [h, (entityCheck_report hasDcss p.1 p.2).1]
    · simp [h]
  · simp [check_atlas_model]
  · rw [hev]
    split <;> simp
  · rw [hev]
    by_cases h : (check_atlas_model hasDcss true cat).fixes ≠ 0
    · simp [h]
    · simp [h]

/-! ## C6 — fix-mode idempotence: description substitution lemmas -/

/-- Lowercasing does not change the word-character class. -/
theorem isWordChar_asciiLower (c : Char) :
    isWordChar (asciiLower c) = isWordChar c := by
  unfold asciiLower
  split <;> rfl

/-- All characters of a run share the class `b`. -/
def uniformB (b : Bool) (ch : List Char) : Prop := ∀ c ∈ ch, isWordChar c = b

/-- The class of a run (meaningful for non-empty uniform runs). -/
def classOf (ch : List Char) : Bool := isWordChar (ch.headD ' ')

/-- Shape of `chunkRuns` on a non-empty input: the first chunk starts with
the first character and is uniform at its class. -/
theorem chunkRuns_head_shape :
    ∀ (rest : List Char) (c : Char), ∃ ds chs,
      chunkRuns (c :: rest) = (c :: ds) :: chs ∧
      uniformB (isWordChar c) (c :: ds) := by
  intro rest
  induction rest with
  | nil =>
    intro c
    refine ⟨[], [], rfl, ?_⟩
    intro x hx
    rcases List.mem_singleton.mp hx with rfl
    rfl
  | cons d rest' ih =>
    intro c
    obtain ⟨ds', chs', hshape, huni⟩ := ih d
    by_cases hcl : isWordChar c = isWordChar d
    · refine ⟨d :: ds', chs', ?_, ?_⟩
      · rw [chunkRuns, hshape]
        simp only [if_pos hcl]
      · intro x hx
        rcases List.mem_cons.mp hx with rfl | hx'
        · rfl
        · rw [huni x hx', hcl]
    · refine ⟨[], (d :: ds') :: chs', ?_, ?_⟩
      · rw [chunkRuns, hshape]
        simp only [if_neg hcl]
      · intro x hx
        rcases List.mem_singleton.mp hx with rfl
        rfl

/-- Chunks are non-empty. -/
theorem chunkRuns_chunks_nonempty :
    ∀ (s : List Char), ∀ ch ∈ chunkRuns s, ch ≠ [] := by
  intro s
  induction s with
  | nil => intro ch hch; simp [chunkRuns] at hch
  | cons c rest ih =>
    intro ch hch
    cases rest with
    | nil =>
      rw [show chunkRuns [c] = [[c]] from rfl] at hch
      rcases List.mem_singleton.mp hch with rfl
      simp
    | cons d rest' =>
      obtain ⟨ds', chs', hshape, _⟩ := chunkRuns_head_shape rest' d
      rw [chunkRuns, hshape] at hch
      by_cases hcl : isWordChar c = isWordChar d
      · simp only [if_pos hcl] at hch
        rcases List.mem_cons.mp hch with rfl | hch'
        · simp
        · exact ih ch (hshape ▸ List.mem_cons_of_mem _ hch')
      · simp only [if_neg hcl] at hch
        rcases List.mem_cons.mp hch with rfl | hch'
        · simp
        · exact ih ch (hshape ▸ hch')

/-- Chunks are uniform at their own class. -/
theorem chunkRuns_chunks_uniform :
    ∀ (s : List Char), ∀ ch ∈ chunkRuns s, uniformB (classOf ch) ch := by
  intro s
  induction s with
  | nil => intro ch hch; simp [chunkRuns] at hch
  | cons c rest ih =>
    intro ch hch
    cases rest with
    | nil =>
      rw [show chunkRuns [c] = [[c]] from rfl] at hch
      rcases List.mem_singleton.mp hch with rfl
      intro x hx
      rcases List.mem_singleton.mp hx with rfl
      rfl
    | cons d rest' =>
      obtain ⟨ds', chs', hshape, huni⟩ := chunkRuns_head_shape rest' d
      rw [chunkRuns, hshape] at hch
      by_cases hcl : isWordChar c = isWordChar d
      · simp only [if_pos hcl] at hch
        rcases List.mem_cons.mp hch with rfl | hch'
        · intro x hx
          rcases List.mem_cons.mp hx with rfl | hx'
          · rfl
          · rw [huni x hx']
            show isWordChar d = classOf (c :: d :: ds')
            rw [← hcl]; rfl
        · exact ih ch (hshape ▸ List.mem_cons_of_mem _ hch')
      · simp only [if_neg hcl] at hch
        rcases List.mem_cons.mp hch with rfl | hch'
        · intro x hx
          rcases List.mem_singleton.mp hx with rfl
          rfl
        · exact ih ch (hshape ▸ hch')

/-- Adjacent chunks have different classes. -/
theorem chunkRuns_chunks_chain :
    ∀ (s : List Char),
      List.Chain' (fun a b => classOf a ≠ classOf b) (chunkRuns s) := by
  intro s
  induction s with
  | nil => simp [chunkRuns]
  | cons c rest ih =>
    cases rest with
    | nil => simp [show chunkRuns [c] = [[c]] from rfl]
    | cons d rest' =>
      obtain ⟨ds', chs', hshape, _⟩ := chunkRuns_head_shape rest' d
      rw [chunkRuns, hshape]
      rw [hshape] at ih
      by_cases hcl : isWordChar c = isWordChar d
      · simp only [if_pos hcl]
        rcases List.chain'_cons'.mp ih with ⟨hhead, htail⟩
        refine List.chain'_cons'.mpr ⟨?_, htail⟩
        intro b hb
        have heq : classOf (c :: d :: ds') = classOf (d :: ds') := by
          show isWordChar c = isWordChar d
          exact hcl
        rw [heq]
        exact hhead b hb
      · simp only [if_neg hcl]
        refine List.chain'_cons'.mpr ⟨?_, ih⟩
        intro b hb
        simp only [List.head?_cons, Option.mem_some_iff] at hb
        subst hb
        exact hcl

/-- The chunks concatenate back to the input. -/
theorem chunkRuns_flat : ∀ (s : List Char), (chunkRuns s).flatten = s := by
  intro s
  induction s with
  | nil => rfl
  | cons c rest ih =>
    cases rest with
    | nil => rfl
    | cons d rest' =>
      obtain ⟨ds', chs', hshape, _⟩ := chunkRuns_head_shape rest' d
      rw [chunkRuns, hshape]
      rw [hshape] at ih
      by_cases hcl : isWordChar c = isWordChar d
      · simp only [if_pos hcl, List.flatten_cons] at ih ⊢
        exact congrArg (fun l => c :: l) ih
      · simp only [if_neg hcl, List.flatten_cons] at ih ⊢
        rw [List.singleton_append]
        exact congrArg (fun l => c :: l) ih

/-- Chunking a uniform non-empty run followed by text of a different
starting class peels the run off as the first chunk. -/
theorem chunkRuns_append (c : Char) :
    ∀ (cs : List Char) (b : Bool), isWordChar c = b → uniformB b cs →
      ∀ (s : List Char), (∀ d ∈ s.head?, isWordChar d ≠ b) →
      chunkRuns ((c :: cs) ++ s) = (c :: cs) :: chunkRuns s := by
  intro cs
  induction cs generalizing c with
  | nil =>
    intro b hc _ s hs
    cases s with
    | nil => rfl
    | cons d s' =>
      obtain ⟨ds', chs', hshape, _⟩ := chunkRuns_head_shape s' d
      rw [List.singleton_append, chunkRuns, hshape]
      have hne : ¬isWordChar c = isWordChar d := by
        intro hc'
        exact hs d rfl (by rw [← hc', hc])
      simp only [if_neg hne]
  | cons c2 cs' ih =>
    intro b hc hu s hs
    have hstep := ih c2 b (hu c2 (by simp)) (fun x hx => hu x (List.mem_cons_of_mem _ hx)) s hs
    have hcons : (c :: c2 :: cs') ++ s = c :: ((c2 :: cs') ++ s) := rfl
    rw [hcons, chunkRuns, hstep]
    simp only [List.cons_append]
    have hcl : isWordChar c = isWordChar c2 := by
      rw [hc, hu c2 (by simp)]
    simp only [if_pos hcl]

/-- Inversion: chunking the concatenation of an alternating list of
non-empty uniform runs recovers exactly that list. -/
theorem chunkRuns_of_chunked :
    ∀ (cs : List (List Char)),
      (∀ ch ∈ cs, ch ≠ []) →
      (∀ ch ∈ cs, uniformB (classOf ch) ch) →
      List.Chain' (fun a b => classOf a ≠ classOf b) cs →
      chunkRuns cs.flatten = cs := by
  intro cs
  induction cs with
  | nil => intro _ _ _; rfl
  | cons ch cs' ih =>
    intro hne hu hchain
    have hch_ne : ch ≠ [] := hne ch (by simp)
    obtain ⟨c, ct, rfl⟩ := List.exists_cons_of_ne_nil hch_ne
    simp only [List.flatten_cons]
    rw [chunkRuns_append c ct (classOf (c :: ct))
      (show isWordChar c = classOf (c :: ct) from rfl)
      (fun x hx => hu (c :: ct) (by simp) x (List.mem_cons_of_mem _ hx))
      cs'.flatten ?_]
    · rw [ih (fun x hx => hne x (List.mem_cons_of_mem _ hx))
        (fun x hx => hu x (List.mem_cons_of_mem _ hx)) hchain.tail]
    · intro d hd
      cases cs' with
      | nil => simp at hd
      | cons ch2 cs'' =>
        have hch2_ne : ch2 ≠ [] := hne ch2 (by simp)
        obtain ⟨d2, dt, rfl⟩ := List.exists_cons_of_ne_nil hch2_ne
        simp only [List.flatten_cons, List.cons_append, List.head?_cons,
          Option.mem_some_iff] at hd
        subst hd
        have hrel := List.chain'_cons'.mp hchain |>.1 (d2 :: dt) (by simp)
        intro hc
        exact hrel (by
          show classOf (c :: ct) = classOf (d2 :: dt)
          rw [show classOf (d2 :: dt) = isWordChar d2 from rfl, hc])

/-- Rewriting every chunk with a class-preserving, emptiness-preserving,
uniformity-preserving function commutes with re-chunking. -/
theorem chunkRuns_flatten_map (s : List Char) (f : List Char → List Char)
    (h1 : ∀ ch, ch ≠ [] → f ch ≠ [])
    (h2 : ∀ ch, classOf (f ch) = classOf ch)
    (h3 : ∀ ch ∈ chunkRuns s, uniformB (classOf (f ch)) (f ch)) :
    chunkRuns ((chunkRuns s).map f).flatten = (chunkRuns s).map f := by
  refine chunkRuns_of_chunked _ ?_ ?_ ?_
  · intro ch hch
    obtain ⟨ch0, hch0, rfl⟩ := List.mem_map.mp hch
    exact h1 ch0 (chunkRuns_chunks_nonempty s ch0 hch0)
  · intro ch hch
    obtain ⟨ch0, hch0, rfl⟩ := List.mem_map.mp hch
    exact h3 ch0 hch0
  · rw [List.chain'_map]
    refine (chunkRuns_chunks_chain s).imp ?_
    intro a b hab
    rw [h2 a, h2 b]
    exact hab

/-- Characters of a case-insensitively matched run are word characters. -/
theorem matched_run_word {w run : List Char}
    (hw : ∀ x ∈ w, isWordChar x = true) (h : run.map asciiLower = w) :
    ∀ c ∈ run, isWordChar c = true := by
  intro c hc
  have hmem : asciiLower c ∈ w := h ▸ List.mem_map_of_mem asciiLower hc
  rw [← isWordChar_asciiLower]
  exact hw _ hmem

/-- `spellChunk` preserves non-emptiness. -/
theorem spellChunk_ne_nil {w r : List Char} (hr : r ≠ []) :
    ∀ ch, ch ≠ [] → spellChunk w r ch ≠ [] := by
  intro ch hch
  unfold spellChunk
  split <;> assumption

/-- `spellChunk` preserves the run class. -/
theorem spellChunk_classOf {w r : List Char}
    (hw : ∀ x ∈ w, isWordChar x = true) (hwne : w ≠ []) (hrcl : classOf r = true) :
    ∀ ch, classOf (spellChunk w r ch) = classOf ch := by
  intro ch
  unfold spellChunk
  split
  · rename_i h
    cases ch with
    | nil => exact absurd h.symm (by simpa using hwne)
    | cons c ct =>
      rw [hrcl]
      exact (matched_run_word hw h c (by simp)).symm
  · rfl

/-- `spellChunk` preserves uniformity. -/
theorem spellChunk_uniform {w r : List Char}
    (hru : uniformB (classOf r) r) :
    ∀ ch, uniformB (classOf ch) ch →
      uniformB (classOf (spellChunk w r ch)) (spellChunk w r ch) := by
  intro ch hu
  unfold spellChunk
  split
  · exact hru
  · exact hu

/-- Re-chunking after a word substitution rewrites chunkwise. -/
theorem chunkRuns_reSubWord (w r : List Char)
    (hw : ∀ x ∈ w, isWordChar x = true) (hwne : w ≠ []) (hr : r ≠ [])
    (hrcl : classOf r = true) (hru : uniformB (classOf r) r) (s : List Char) :
    chunkRuns (reSubWord w r s) = (chunkRuns s).map (spellChunk w r) := by
  unfold reSubWord
  exact chunkRuns_flatten_map s _ (spellChunk_ne_nil hr)
    (spellChunk_classOf hw hwne hrcl)
    (fun ch hch => spellChunk_uniform hru ch (chunkRuns_chunks_uniform s ch hch))

/-- A substitution whose replacement does not itself match is chunkwise
idempotent. -/
theorem spellChunk_idem {w r : List Char} (hr : r.map asciiLower ≠ w)
    (ch : List Char) : spellChunk w r (spellChunk w r ch) = spellChunk w r ch := by
  by_cases h : ch.map asciiLower = w
  · simp only [spellChunk, if_pos h, if_neg hr]
  · simp only [spellChunk, if_neg h]

/-- The gray→grey rewrite fixes anything the armor→armour rewrite produces
out of a gray→grey output. -/
theorem spellChunk_gray_after_armor (ch : List Char) :
    spellChunk "gray".data "grey".data
      (spellChunk "armor".data "armour".data
        (spellChunk "gray".data "grey".data ch)) =
    spellChunk "armor".data "armour".data
      (spellChunk "gray".data "grey".data ch) := by
  by_cases hg : ch.map asciiLower = "gray".data
  · simp only [spellChunk, if_pos hg, if_neg (by decide :
      ¬("grey".data.map asciiLower = "armor".data)), if_neg (by decide :
      ¬("grey".data.map asciiLower = "gray".data))]
  · simp only [spellChunk, if_neg hg]
    by_cases ha : ch.map asciiLower = "armor".data
    · simp only [if_pos ha, if_neg (by decide :
        ¬("armour".data.map asciiLower = "gray".data))]
    · simp only [if_neg ha, if_neg hg]

/-- `descFix` is idempotent. -/
theorem descFix_idem (d : String) : descFix (descFix d) = descFix d := by
  have hwg : ∀ x ∈ "gray".data, isWordChar x = true := by decide
  have hwa : ∀ x ∈ "armor".data, isWordChar x = true := by decide
  have hrg : uniformB (classOf "grey".data) "grey".data := by
    intro c hc; fin_cases hc <;> rfl
  have hra : uniformB (classOf "armour".data) "armour".data := by
    intro c hc; fin_cases hc <;> rfl
  have hG : ∀ s : List Char,
      chunkRuns (reSubWord "gray".data "grey".data s) =
        (chunkRuns s).map (spellChunk "gray".data "grey".data) :=
    chunkRuns_reSubWord _ _ hwg (by decide) (by decide) (by decide) hrg
  have hA : ∀ s : List Char,
      chunkRuns (reSubWord "armor".data "armour".data s) =
        (chunkRuns s).map (spellChunk "armor".data "armour".data) :=
    chunkRuns_reSubWord _ _ hwa (by decide) (by decide) (by decide) hra
  unfold descFix
  congr 1
  set x := d.data with hx
  set g := spellChunk "gray".data "grey".data with hgdef
  set a := spellChunk "armor".data "armour".data with hadef
  -- chunk views
  have h2 : chunkRuns (reSubWord "armor".data "armour".data
      (reSubWord "gray".data "grey".data x)) = (chunkRuns x).map (a ∘ g) := by
    rw [hA, hG, List.map_map]
  -- G (A (G x)) = A (G x)
  have h3 : reSubWord "gray".data "grey".data
      (reSubWord "armor".data "armour".data (reSubWord "gray".data "grey".data x)) =
      reSubWord "armor".data "armour".data (reSubWord "gray".data "grey".data x) := by
    conv_lhs => rw [reSubWord, h2]
    rw [List.map_map]
    have : (chunkRuns x).map (g ∘ a ∘ g) = (chunkRuns x).map (a ∘ g) :=
      List.map_congr_left (fun ch _ => spellChunk_gray_after_armor ch)
    rw [this]
    conv_rhs => rw [reSubWord, hG, List.map_map]
  -- A (A (G x)) = A (G x)
  have h4 : reSubWord "armor".data "armour".data
      (reSubWord "armor".data "armour".data (reSubWord "gray".data "grey".data x)) =
      reSubWord "armor".data "armour".data (reSubWord "gray".data "grey".data x) := by
    conv_lhs => rw [reSubWord, h2]
    rw [List.map_map]
    have : (chunkRuns x).map (a ∘ a ∘ g) = (chunkRuns x).map (a ∘ g) :=
      List.map_congr_left (fun ch _ =>
        spellChunk_idem (by decide : "armour".data.map asciiLower ≠ "armor".data) (g ch))
    rw [this]
    conv_rhs => rw [reSubWord, hG, List.map_map]
  show reSubWord "armor".data "armour".data (reSubWord "gray".data "grey".data
      (reSubWord "armor".data "armour".data (reSubWord "gray".data "grey".data x))) =
    reSubWord "armor".data "armour".data (reSubWord "gray".data "grey".data x)
  rw [h3, h4]

/-! ### Fix-mode characterizations of the individual rules -/

/-- Rule 1 only erases from the tags. -/
theorem ruleStripTT_fix_sub (k : String) (e : Sprite) :
    (ruleStripTT true k e).1.tags.Sublist e.tags ∧
    (ruleStripTT true k e).1.description = e.description ∧
    (ruleStripTT true k e).1.tile_type = e.tile_type := by
  unfold ruleStripTT
  split
  · exact ⟨List.erase_sublist _ _, rfl, rfl⟩
  · exact ⟨List.Sublist.refl _, rfl, rfl⟩

/-- After rule 1 the tile_type is out of the tags (distinct tags). -/
theorem ruleStripTT_fix_no_tt (k : String) (e : Sprite) (hnd : e.tags.Nodup) :
    e.tile_type = "" ∨ e.tile_type ∉ (ruleStripTT true k e).1.tags := by
  unfold ruleStripTT
  split
  · rename_i h
    exact Or.inr (not_mem_erase_of_count_le_one (List.nodup_iff_count_le_one.mp hnd _))
  · rename_i h
    rcases not_and_or.mp h with h' | h'
    · exact Or.inl (not_not.mp h')
    · exact Or.inr h'

/-- Rule 2 always yields the spelled tags. -/
theorem ruleTagSpell_fix_eq (k : String) (e : Sprite) :
    (ruleTagSpell true k e).1 = { e with tags := e.tags.map TAG_SPELLING } := by
  unfold ruleTagSpell
  dsimp only
  split
  · rfl
  · rename_i h
    have heq : e.tags.map TAG_SPELLING = e.tags := not_not.mp h
    rw [heq]

/-- The spelling map never produces an American form. -/
theorem spell_ne_gray (t : String) : TAG_SPELLING t ≠ "gray" := by
  unfold TAG_SPELLING
  split
  · decide
  · split
    · decide
    · rename_i h _; exact h

theorem spell_ne_armor (t : String) : TAG_SPELLING t ≠ "armor" := by
  unfold TAG_SPELLING
  split
  · decide
  · split
    · decide
    · rename_i _ h; exact h

/-- Inverting the spelling map. -/
theorem spell_eq_cases {t x : String} (h : TAG_SPELLING t = x) :
    t = x ∨ (t = "gray" ∧ x = "grey") ∨ (t = "armor" ∧ x = "armour") := by
  unfold TAG_SPELLING at h
  split at h
  · rename_i ht; exact Or.inr (Or.inl ⟨ht, h.symm⟩)
  · split at h
    · rename_i ht; exact Or.inr (Or.inr ⟨ht, h.symm⟩)
    · exact Or.inl h

/-- A tag list without American forms is a fixed point of the spelling map. -/
theorem map_spell_eq_self {l : List String} (hg : "gray" ∉ l) (ha : "armor" ∉ l) :
    l.map TAG_SPELLING = l := by
  induction l with
  | nil => rfl
  | cons t rest ih =>
    simp only [List.mem_cons, not_or] at hg ha
    rw [List.map_cons, ih hg.2 ha.2]
    congr 1
    unfold TAG_SPELLING
    rw [if_neg (fun hc => hg.1 hc.symm), if_neg (fun hc => ha.1 hc.symm)]

/-- Counts of tags unrelated to the spelling map are preserved. -/
theorem count_map_spell {l : List String} {x : String}
    (h1 : x ≠ "gray") (h2 : x ≠ "armor") (h3 : x ≠ "grey") (h4 : x ≠ "armour") :
    (l.map TAG_SPELLING).count x = l.count x := by
  induction l with
  | nil => rfl
  | cons t rest ih =>
    rw [List.map_cons]
    by_cases ht : t = x
    · subst ht
      have : TAG_SPELLING t = t := by
        unfold TAG_SPELLING
        rw [if_neg (fun hc => h1 hc), if_neg (fun hc => h2 hc)]
      rw [this, List.count_cons_self, List.count_cons_self, ih]
    · have hsp : TAG_SPELLING t ≠ x := by
        intro hc
        rcases spell_eq_cases hc with rfl | ⟨_, rfl⟩ | ⟨_, rfl⟩
        · exact ht rfl
        · exact h3 rfl
        · exact h4 rfl
      rw [List.count_cons_of_ne (Ne.symm hsp), List.count_cons_of_ne (Ne.symm ht), ih]

/-- Membership transfer through the spelling map, away from its range. -/
theorem not_mem_map_spell {l : List String} {x : String}
    (hx : x ∉ l) (hg : x = "grey" → "gray" ∉ l) (ha : x = "armour" → "armor" ∉ l) :
    x ∉ l.map TAG_SPELLING := by
  intro hc
  obtain ⟨t, ht, hsp⟩ := List.mem_map.mp hc
  rcases spell_eq_cases hsp with rfl | ⟨rfl, rfl⟩ | ⟨rfl, rfl⟩
  · exact hx ht
  · exact hg rfl ht
  · exact ha rfl ht

/-- Rule 3 always yields the substituted description. -/
theorem ruleDescSpell_fix_eq (k : String) (e : Sprite) :
    (ruleDescSpell true k e).1 = { e with description := descFix e.description } := by
  unfold ruleDescSpell
  dsimp only
  split
  · rfl
  · rename_i h
    have heq : descFix e.description = e.description := not_not.mp h
    rw [heq]

/-- Rule 4 in fix mode, unfolded to its two outcome shapes. -/
theorem ruleCreature_fix_cases (k : String) (e : Sprite) :
    ruleCreature true k e =
      if e.tile_type = "creature" ∧ e.tags.filter (CREATURE_STRIP_TAGS.contains ·) ≠ [] then
        ({ e with tags := e.tags.filter (!CREATURE_STRIP_TAGS.contains ·) }, 1, [])
      else (e, 0, []) := by
  unfold ruleCreature; split <;> rfl

/-- Rule 5 in fix mode, unfolded to its two outcome shapes. -/
theorem ruleAltarStrip_fix_cases (k : String) (e : Sprite) :
    ruleAltarStrip true k e =
      if e.tile_type = "altar" ∧ e.tags.filter (ALTAR_STRIP_TAGS.contains ·) ≠ [] then
        ({ e with tags := e.tags.filter (!ALTAR_STRIP_TAGS.contains ·) }, 1, [])
      else (e, 0, []) := by
  unfold ruleAltarStrip; split <;> rfl

/-- Rule 4 (creature strip) only filters the tags. -/
theorem ruleCreature_fix_sub (k : String) (e : Sprite) :
    (ruleCreature true k e).1.tags.Sublist e.tags ∧
    (ruleCreature true k e).1.description = e.description ∧
    (ruleCreature true k e).1.tile_type = e.tile_type := by
  rw [ruleCreature_fix_cases]
  split
  · exact ⟨List.filter_sublist _, rfl, rfl⟩
  · exact ⟨List.Sublist.refl _, rfl, rfl⟩

/-- After rule 4 a creature carries no equipment tag. -/
theorem ruleCreature_fix_strip (k : String) (e : Sprite)
    (h : e.tile_type = "creature") :
    ∀ s ∈ CREATURE_STRIP_TAGS, s ∉ (ruleCreature true k e).1.tags := by
  intro s hs
  rw [ruleCreature_fix_cases]
  split
  · intro hc
    have hmem := (List.mem_filter.mp hc).2
    simp at hmem
    exact hmem hs
  · rename_i hng
    intro hc
    rcases not_and_or.mp hng with h' | h'
    · exact h' h
    · have hnil : e.tags.filter (CREATURE_STRIP_TAGS.contains ·) = [] := not_not.mp h'
      have hmem : s ∈ e.tags.filter (CREATURE_STRIP_TAGS.contains ·) :=
        List.mem_filter.mpr ⟨hc, by simpa using hs⟩
      rw [hnil] at hmem
      exact absurd hmem (List.not_mem_nil s)

/-- Tags outside the strip set pass through rule 4. -/
theorem ruleCreature_fix_keep (k : String) (e : Sprite) {x : String}
    (hx : x ∉ CREATURE_STRIP_TAGS) :
    x ∈ (ruleCreature true k e).1.tags ↔ x ∈ e.tags := by
  rw [ruleCreature_fix_cases]
  split
  · simp only [List.mem_filter]
    exact ⟨fun h => h.1, fun h => ⟨h, by simpa using hx⟩⟩
  · exact Iff.rfl

/-- Rule 5 (altar strip) only filters the tags. -/
theorem ruleAltarStrip_fix_sub (k : String) (e : Sprite) :
    (ruleAltarStrip true k e).1.tags.Sublist e.tags ∧
    (ruleAltarStrip true k e).1.description = e.description ∧
    (ruleAltarStrip true k e).1.tile_type = e.tile_type := by
  rw [ruleAltarStrip_fix_cases]
  split
  · exact ⟨List.filter_sublist _, rfl, rfl⟩
  · exact ⟨List.Sublist.refl _, rfl, rfl⟩

/-- After rule 5 an altar carries no weapon tag. -/
theorem ruleAltarStrip_fix_strip (k : String) (e : Sprite)
    (h : e.tile_type = "altar") :
    ∀ s ∈ ALTAR_STRIP_TAGS, s ∉ (ruleAltarStrip true k e).1.tags := by
  intro s hs
  rw [ruleAltarStrip_fix_cases]
  split
  · intro hc
    have hmem := (List.mem_filter.mp hc).2
    simp at hmem
    exact hmem hs
  · rename_i hng
    intro hc
    rcases not_and_or.mp hng with h' | h'
    · exact h' h
    · have hnil : e.tags.filter (ALTAR_STRIP_TAGS.contains ·) = [] := not_not.mp h'
      have hmem : s ∈ e.tags.filter (ALTAR_STRIP_TAGS.contains ·) :=
        List.mem_filter.mpr ⟨hc, by simpa using hs⟩
      rw [hnil] at hmem
      exact absurd hmem (List.not_mem_nil s)

/-- Tags outside the strip set pass through rule 5. -/
theorem ruleAltarStrip_fix_keep (k : String) (e : Sprite) {x : String}
    (hx : x ∉ ALTAR_STRIP_TAGS) :
    x ∈ (ruleAltarStrip true k e).1.tags ↔ x ∈ e.tags := by
  rw [ruleAltarStrip_fix_cases]
  split
  · simp only [List.mem_filter]
    exact ⟨fun h => h.1, fun h => ⟨h, by simpa using hx⟩⟩
  · exact Iff.rfl

/-- Applying a concatenation of action lists applies the pieces in order. -/
theorem applyTagFixes_append (l1 l2 : List (Bool × String)) (tags : List String) :
    applyTagFixes (l1 ++ l2) tags = applyTagFixes l2 (applyTagFixes l1 tags) := by
  induction l1 generalizing tags with
  | nil => rfl
  | cons a rest ih =>
    obtain ⟨b, t⟩ := a
    cases b <;> simp only [List.cons_append, applyTagFixes] <;> exact ih _

/-- Actions that never touch tag `x` leave its membership unchanged. -/
theorem applyTagFixes_mem_other {l : List (Bool × String)} {x : String}
    (hx : ∀ a ∈ l, a.2 ≠ x) (tags : List String) :
    x ∈ applyTagFixes l tags ↔ x ∈ tags := by
  induction l generalizing tags with
  | nil => exact Iff.rfl
  | cons a rest ih =>
    obtain ⟨b, t⟩ := a
    have hxt : t ≠ x := hx (b, t) (List.mem_cons_self _ _)
    have hrest : ∀ a ∈ rest, a.2 ≠ x := fun a ha => hx a (List.mem_cons_of_mem _ ha)
    cases b
    · show x ∈ applyTagFixes rest (if tags.contains t then tags.erase t else tags) ↔ x ∈ tags
      rw [ih hrest]
      split
      · exact List.mem_erase_of_ne (Ne.symm hxt)
      · exact Iff.rfl
    · show x ∈ applyTagFixes rest (if tags.contains t then tags else tags ++ [t]) ↔ x ∈ tags
      rw [ih hrest]
      split
      · exact Iff.rfl
      · simp [Ne.symm hxt]

/-- Actions that never touch tag `x` leave its multiplicity unchanged. -/
theorem applyTagFixes_count_other {l : List (Bool × String)} {x : String}
    (hx : ∀ a ∈ l, a.2 ≠ x) (tags : List String) :
    (applyTagFixes l tags).count x = tags.count x := by
  induction l generalizing tags with
  | nil => rfl
  | cons a rest ih =>
    obtain ⟨b, t⟩ := a
    have hxt : t ≠ x := hx (b, t) (List.mem_cons_self _ _)
    have hrest : ∀ a ∈ rest, a.2 ≠ x := fun a ha => hx a (List.mem_cons_of_mem _ ha)
    cases b
    · show (applyTagFixes rest (if tags.contains t then tags.erase t else tags)).count x
          = tags.count x
      rw [ih hrest]
      split
      · exact List.count_erase_of_ne (Ne.symm hxt) tags
      · rfl
    · show (applyTagFixes rest (if tags.contains t then tags else tags ++ [t])).count x
          = tags.count x
      rw [ih hrest]
      split
      · rfl
      · simp [Ne.symm hxt]

/-- Every tag present after applying actions was present before or was the
subject of some action. -/
theorem applyTagFixes_mem {l : List (Bool × String)} {x : String} {tags : List String}
    (hm : x ∈ applyTagFixes l tags) : x ∈ tags ∨ ∃ a ∈ l, a.2 = x := by
  induction l generalizing tags with
  | nil => exact Or.inl hm
  | cons a rest ih =>
    obtain ⟨b, t⟩ := a
    cases b
    · have hm' : x ∈ applyTagFixes rest (if tags.contains t then tags.erase t else tags) := hm
      rcases ih hm' with h | ⟨a, ha, hax⟩
      · left
        revert h
        split
        · exact fun h => List.mem_of_mem_erase h
        · exact id
      · exact Or.inr ⟨a, List.mem_cons_of_mem _ ha, hax⟩
    · have hm' : x ∈ applyTagFixes rest (if tags.contains t then tags else tags ++ [t]) := hm
      rcases ih hm' with h | ⟨a, ha, hax⟩
      · revert h
        split
        · exact Or.inl
        · intro h
          rcases List.mem_append.mp h with h | h
          · exact Or.inl h
          · exact Or.inr ⟨(true, t), List.mem_cons_self _ _, (List.mem_singleton.mp h).symm⟩
      · exact Or.inr ⟨a, List.mem_cons_of_mem _ ha, hax⟩

/-- The sacred segment of the altar-alignment action list (line 186–187). -/
def sacredSeg (tags : List String) : List (Bool × String) :=
  if !tags.contains "sacred" then [(true, "sacred")] else []

/-- The holy/unholy segment of the altar-alignment action list
(lines 188–196), parametrised by the tag name `t` and the desired state `b`. -/
def alignSeg (t : String) (tags : List String) (b : Bool) : List (Bool × String) :=
  (if b && !tags.contains t then [(true, t)] else []) ++
  (if !b && tags.contains t then [(false, t)] else [])

/-- `altarTagFixes` splits into its three per-tag segments. -/
theorem altarTagFixes_decomp (tags : List String) (sh su : Bool) :
    altarTagFixes tags sh su =
      sacredSeg tags ++ alignSeg "holy" tags sh ++ alignSeg "unholy" tags su := by
  simp [altarTagFixes, sacredSeg, alignSeg, List.append_assoc]

/-- Every sacred-segment action is about "sacred". -/
theorem sacredSeg_snd {tags : List String} {a : Bool × String}
    (ha : a ∈ sacredSeg tags) : a.2 = "sacred" := by
  unfold sacredSeg at ha
  split at ha <;> simp_all

/-- Every alignment-segment action is about its own tag. -/
theorem alignSeg_snd {t : String} {tags : List String} {b : Bool} {a : Bool × String}
    (ha : a ∈ alignSeg t tags b) : a.2 = t := by
  unfold alignSeg at ha
  rcases List.mem_append.mp ha with h | h <;> (split at h <;> simp_all)

/-- Applying the sacred segment guarantees "sacred" is present. -/
theorem sacredSeg_post (tags : List String) :
    "sacred" ∈ applyTagFixes (sacredSeg tags) tags := by
  unfold sacredSeg
  split
  · show "sacred" ∈ (if tags.contains "sacred" then tags else tags ++ ["sacred"])
    split <;> simp_all
  · rename_i h
    simp at h
    exact h

/-- Applying an alignment segment drives the tag's membership to the
desired state, provided the tag occurs at most once and the working list
agrees with the list the segment was computed from. -/
theorem alignSeg_post (t : String) (tags tags' : List String) (b : Bool)
    (hmem : t ∈ tags' ↔ t ∈ tags) (hcnt : tags'.count t ≤ 1) :
    (t ∈ applyTagFixes (alignSeg t tags b) tags' ↔ b = true) := by
  by_cases hb : b = true <;> by_cases hm : t ∈ tags
  · have : alignSeg t tags b = [] := by simp [alignSeg, hb, hm]
    rw [this]
    show t ∈ tags' ↔ b = true
    rw [hmem]
    simp [hb, hm]
  · have : alignSeg t tags b = [(true, t)] := by simp [alignSeg, hb, hm]
    rw [this]
    show t ∈ (if tags'.contains t then tags' else tags' ++ [t]) ↔ b = true
    split <;> simp_all
  · have hbf : b = false := Bool.eq_false_iff.mpr hb
    have : alignSeg t tags b = [(false, t)] := by simp [alignSeg, hbf, hm]
    rw [this]
    have hm' : t ∈ tags' := hmem.mpr hm
    show t ∈ (if tags'.contains t then tags'.erase t else tags') ↔ b = true
    rw [if_pos (by simpa using hm'), hbf]
    simp only [Bool.false_eq_true, iff_false]
    exact not_mem_erase_of_count_le_one hcnt
  · have : alignSeg t tags b = [] := by simp [alignSeg, hb, hm]
    rw [this]
    show t ∈ tags' ↔ b = true
    rw [hmem]
    simp [hb, hm]

/-- Applying the full alignment action list yields the intended sacred /
holy / unholy state, provided holy and unholy each occur at most once. -/
theorem applyTagFixes_altar_post (tags : List String) (sh su : Bool)
    (hh : tags.count "holy" ≤ 1) (hu : tags.count "unholy" ≤ 1) :
    "sacred" ∈ applyTagFixes (altarTagFixes tags sh su) tags ∧
    ("holy" ∈ applyTagFixes (altarTagFixes tags sh su) tags ↔ sh = true) ∧
    ("unholy" ∈ applyTagFixes (altarTagFixes tags sh su) tags ↔ su = true) := by
  rw [altarTagFixes_decomp, applyTagFixes_append, applyTagFixes_append]
  have hS_holy : ∀ a ∈ sacredSeg tags, a.2 ≠ "holy" := by
    intro a ha
    rw [sacredSeg_snd ha]
    decide
  have hS_unholy : ∀ a ∈ sacredSeg tags, a.2 ≠ "unholy" := by
    intro a ha
    rw [sacredSeg_snd ha]
    decide
  have hH_sacred : ∀ a ∈ alignSeg "holy" tags sh, a.2 ≠ "sacred" := by
    intro a ha
    rw [alignSeg_snd ha]
    decide
  have hH_unholy : ∀ a ∈ alignSeg "holy" tags sh, a.2 ≠ "unholy" := by
    intro a ha
    rw [alignSeg_snd ha]
    decide
  have hU_sacred : ∀ a ∈ alignSeg "unholy" tags su, a.2 ≠ "sacred" := by
    intro a ha
    rw [alignSeg_snd ha]
    decide
  have hU_holy : ∀ a ∈ alignSeg "unholy" tags su, a.2 ≠ "holy" := by
    intro a ha
    rw [alignSeg_snd ha]
    decide
  refine ⟨?_, ?_, ?_⟩
  · rw [applyTagFixes_mem_other hU_sacred, applyTagFixes_mem_other hH_sacred]
    exact sacredSeg_post tags
  · rw [applyTagFixes_mem_other hU_holy]
    exact alignSeg_post "holy" tags _ sh
      (applyTagFixes_mem_other hS_holy tags)
      (by rw [applyTagFixes_count_other hS_holy tags]; exact hh)
  · exact alignSeg_post "unholy" tags _ su
      (by rw [applyTagFixes_mem_other hH_unholy, applyTagFixes_mem_other hS_unholy])
      (by rw [applyTagFixes_count_other hH_unholy, applyTagFixes_count_other hS_unholy]
          exact hu)

/-- Rule 6 in fix mode, unfolded to its three outcome shapes. -/
theorem ruleAltarAlign_fix_cases (k : String) (e : Sprite) :
    ruleAltarAlign true k e =
      if startsWithB "dungeon/altars" (normKey k) then
        if altarTagFixes e.tags (shouldHoly k) (shouldUnholy k) ≠ [] then
          ({ e with tags :=
              applyTagFixes (altarTagFixes e.tags (shouldHoly k) (shouldUnholy k)) e.tags },
           1, [])
        else (e, 0, [])
      else (e, 0, []) := by
  unfold ruleAltarAlign
  dsimp only
  split
  · split <;> rfl
  · rfl

/-- Rule 6 only changes the tags. -/
theorem ruleAltarAlign_fix_frame (k : String) (e : Sprite) :
    (ruleAltarAlign true k e).1.description = e.description ∧
    (ruleAltarAlign true k e).1.tile_type = e.tile_type := by
  rw [ruleAltarAlign_fix_cases]
  split
  · split <;> exact ⟨rfl, rfl⟩
  · exact ⟨rfl, rfl⟩

/-- Every tag present after rule 6 was present before, or is one of the
three alignment tags added under an altar-directory key. -/
theorem ruleAltarAlign_fix_mem {k : String} {e : Sprite} {x : String}
    (hm : x ∈ (ruleAltarAlign true k e).1.tags) :
    x ∈ e.tags ∨ (startsWithB "dungeon/altars" (normKey k) = true ∧
      (x = "sacred" ∨ x = "holy" ∨ x = "unholy")) := by
  rw [ruleAltarAlign_fix_cases] at hm
  revert hm
  split
  · rename_i hk
    split
    · intro hm
      rcases applyTagFixes_mem hm with h | ⟨a, ha, hax⟩
      · exact Or.inl h
      · refine Or.inr ⟨hk, ?_⟩
        rw [altarTagFixes_decomp] at ha
        rcases List.mem_append.mp ha with h | h
        · rcases List.mem_append.mp h with h | h
          · exact Or.inl (hax ▸ sacredSeg_snd h)
          · exact Or.inr (Or.inl (hax ▸ alignSeg_snd h))
        · exact Or.inr (Or.inr (hax ▸ alignSeg_snd h))
    · exact Or.inl
  · exact Or.inl

/-- After rule 6 under an altar-directory key, the alignment tags are in
the intended state. -/
theorem ruleAltarAlign_fix_post (k : String) (e : Sprite)
    (hk : startsWithB "dungeon/altars" (normKey k) = true)
    (hh : e.tags.count "holy" ≤ 1) (hu : e.tags.count "unholy" ≤ 1) :
    "sacred" ∈ (ruleAltarAlign true k e).1.tags ∧
    ("holy" ∈ (ruleAltarAlign true k e).1.tags ↔ shouldHoly k = true) ∧
    ("unholy" ∈ (ruleAltarAlign true k e).1.tags ↔ shouldUnholy k = true) := by
  rw [ruleAltarAlign_fix_cases, if_pos hk]
  split
  · exact applyTagFixes_altar_post e.tags (shouldHoly k) (shouldUnholy k) hh hu
  · rename_i hnil
    have hnil' : altarTagFixes e.tags (shouldHoly k) (shouldUnholy k) = [] := not_not.mp hnil
    rw [altarTagFixes_decomp] at hnil'
    obtain ⟨h1, h3⟩ := List.append_eq_nil.mp hnil'
    obtain ⟨hs, h2⟩ := List.append_eq_nil.mp h1
    have hsac : "sacred" ∈ e.tags := by
      by_contra hc
      simp [sacredSeg, hc] at hs
    have hhly : "holy" ∈ e.tags ↔ shouldHoly k = true := by
      obtain ⟨ha, hb⟩ := List.append_eq_nil.mp h2
      by_cases hbb : shouldHoly k = true <;> by_cases hm : "holy" ∈ e.tags
      · simp [hbb, hm]
      · simp [hbb, hm] at ha
      · simp [hbb, Bool.eq_false_iff.mpr hbb, hm] at hb
      · simp [hbb, hm]
    have huly : "unholy" ∈ e.tags ↔ shouldUnholy k = true := by
      obtain ⟨ha, hb⟩ := List.append_eq_nil.mp h3
      by_cases hbb : shouldUnholy k = true <;> by_cases hm : "unholy" ∈ e.tags
      · simp [hbb, hm]
      · simp [hbb, hm] at ha
      · simp [hbb, Bool.eq_false_iff.mpr hbb, hm] at hb
      · simp [hbb, hm]
    exact ⟨hsac, hhly, huly⟩

/-- The append-if-absent fold of the directory rule only grows the list. -/
theorem addFold_mono {x : String} (l : List String) (acc : List String) (hx : x ∈ acc) :
    x ∈ l.foldl (fun tg t => if tg.contains t then tg else tg ++ [t]) acc := by
  induction l generalizing acc with
  | nil => exact hx
  | cons t rest ih =>
    rw [List.foldl_cons]
    apply ih
    dsimp only
    split
    · exact hx
    · exact List.mem_append_left _ hx

/-- Everything the append-if-absent fold produces comes from the
accumulator or the processed list. -/
theorem addFold_src {x : String} (l : List String) (acc : List String)
    (hm : x ∈ l.foldl (fun tg t => if tg.contains t then tg else tg ++ [t]) acc) :
    x ∈ acc ∨ x ∈ l := by
  induction l generalizing acc with
  | nil => exact Or.inl hm
  | cons t rest ih =>
    rw [List.foldl_cons] at hm
    rcases ih _ hm with h | h
    · revert h
      split
      · exact fun h => Or.inl h
      · intro h
        rcases List.mem_append.mp h with h | h
        · exact Or.inl h
        · rw [List.mem_singleton.mp h]
          exact Or.inr (List.mem_cons_self t rest)
    · exact Or.inr (List.mem_cons_of_mem _ h)

/-- The append-if-absent fold makes every processed tag present. -/
theorem addFold_adds {x : String} (l : List String) (acc : List String) (hx : x ∈ l) :
    x ∈ l.foldl (fun tg t => if tg.contains t then tg else tg ++ [t]) acc := by
  induction l generalizing acc with
  | nil => exact absurd hx (List.not_mem_nil x)
  | cons t rest ih =>
    rw [List.foldl_cons]
    rcases List.mem_cons.mp hx with rfl | hx'
    · apply addFold_mono
      dsimp only
      split
      · rename_i hc
        simpa using hc
      · exact List.mem_append_right _ (List.mem_singleton.mpr rfl)
    · exact ih _ hx'

/-- One directory-rule step in fix mode, unfolded to its outcome shapes. -/
theorem dirStep_fix_cases (k norm tt : String) (st : Sprite × Nat × List Issue)
    (pe : String × List String) :
    dirStep true k norm tt st pe =
      if startsWithB pe.1 norm then
        if pe.2.filter (fun t => !st.1.tags.contains t && t ≠ tt) ≠ [] then
          ({ st.1 with
              tags := (pe.2.filter (fun t => !st.1.tags.contains t && t ≠ tt)).foldl
                  (fun tg t => if tg.contains t then tg else tg ++ [t]) st.1.tags },
           st.2.1 + 1, st.2.2)
        else st
      else st := by
  unfold dirStep
  dsimp only
  split
  · split <;> rfl
  · rfl

/-- A directory-rule step only changes the tags and the counters. -/
theorem dirStep_fix_frame (k norm tt : String) (st : Sprite × Nat × List Issue)
    (pe : String × List String) :
    (dirStep true k norm tt st pe).1.description = st.1.description ∧
    (dirStep true k norm tt st pe).1.tile_type = st.1.tile_type := by
  rw [dirStep_fix_cases]
  split
  · split <;> exact ⟨rfl, rfl⟩
  · exact ⟨rfl, rfl⟩

/-- A directory-rule step never removes a tag. -/
theorem dirStep_fix_mono {x : String} (k norm tt : String)
    (st : Sprite × Nat × List Issue) (pe : String × List String)
    (hx : x ∈ st.1.tags) : x ∈ (dirStep true k norm tt st pe).1.tags := by
  rw [dirStep_fix_cases]
  split
  · split
    · exact addFold_mono _ _ hx
    · exact hx
  · exact hx

/-- Every tag present after a directory-rule step was present before, or
is an expected tag of a matching prefix and differs from the tile type. -/
theorem dirStep_fix_src {x : String} (k norm tt : String)
    (st : Sprite × Nat × List Issue) (pe : String × List String)
    (hm : x ∈ (dirStep true k norm tt st pe).1.tags) :
    x ∈ st.1.tags ∨ (startsWithB pe.1 norm = true ∧ x ∈ pe.2 ∧ x ≠ tt) := by
  rw [dirStep_fix_cases] at hm
  revert hm
  split
  · rename_i hk
    split
    · intro hm
      rcases addFold_src _ _ hm with h | h
      · exact Or.inl h
      · have := List.mem_filter.mp h
        refine Or.inr ⟨hk, this.1, ?_⟩
        have hb := this.2
        simp only [Bool.and_eq_true, decide_eq_true_eq] at hb
        exact hb.2
    · exact Or.inl
  · exact Or.inl

/-- After a directory-rule step with a matching prefix, every expected tag
other than the tile type is present. -/
theorem dirStep_fix_post (k norm tt : String) (st : Sprite × Nat × List Issue)
    (pe : String × List String) (hk : startsWithB pe.1 norm = true) :
    ∀ t ∈ pe.2, t = tt ∨ t ∈ (dirStep true k norm tt st pe).1.tags := by
  intro t ht
  by_cases htt : t = tt
  · exact Or.inl htt
  · right
    rw [dirStep_fix_cases, if_pos hk]
    split
    · by_cases hin : t ∈ st.1.tags
      · exact addFold_mono _ _ hin
      · apply addFold_adds
        apply List.mem_filter.mpr
        refine ⟨ht, ?_⟩
        simp [hin, htt]
    · rename_i hnil
      have hnil' := not_not.mp hnil
      rw [List.filter_eq_nil_iff] at hnil'
      have hpt := hnil' t ht
      by_cases hin : t ∈ st.1.tags
      · exact hin
      · exact absurd (by simp [hin, htt]) hpt

/-- The directory-rule fold only changes the tags and the counters. -/
theorem dirFold_fix_frame (k norm tt : String) (l : List (String × List String))
    (st : Sprite × Nat × List Issue) :
    (l.foldl (dirStep true k norm tt) st).1.description = st.1.description ∧
    (l.foldl (dirStep true k norm tt) st).1.tile_type = st.1.tile_type := by
  induction l generalizing st with
  | nil => exact ⟨rfl, rfl⟩
  | cons pe rest ih =>
    have h1 := dirStep_fix_frame k norm tt st pe
    have h2 := ih (dirStep true k norm tt st pe)
    exact ⟨h2.1.trans h1.1, h2.2.trans h1.2⟩

/-- The directory-rule fold never removes a tag. -/
theorem dirFold_fix_mono {x : String} (k norm tt : String)
    (l : List (String × List String)) (st : Sprite × Nat × List Issue)
    (hx : x ∈ st.1.tags) : x ∈ (l.foldl (dirStep true k norm tt) st).1.tags := by
  induction l generalizing st with
  | nil => exact hx
  | cons pe rest ih => exact ih _ (dirStep_fix_mono k norm tt st pe hx)

/-- Every tag present after the directory-rule fold was present before, or
is an expected tag of some matching prefix and differs from the tile type. -/
theorem dirFold_fix_src {x : String} (k norm tt : String)
    (l : List (String × List String)) (st : Sprite × Nat × List Issue)
    (hm : x ∈ (l.foldl (dirStep true k norm tt) st).1.tags) :
    x ∈ st.1.tags ∨
      ∃ pe ∈ l, startsWithB pe.1 norm = true ∧ x ∈ pe.2 ∧ x ≠ tt := by
  induction l generalizing st with
  | nil => exact Or.inl hm
  | cons pe rest ih =>
    rcases ih _ hm with h | ⟨pe', hpe', hrest⟩
    · rcases dirStep_fix_src k norm tt st pe h with h' | h'
      · exact Or.inl h'
      · exact Or.inr ⟨pe, List.mem_cons_self _ _, h'⟩
    · exact Or.inr ⟨pe', List.mem_cons_of_mem _ hpe', hrest⟩

/-- After the directory-rule fold, every matching prefix has all its
expected tags present (the tile type excepted). -/
theorem dirFold_fix_post (k norm tt : String) (l : List (String × List String))
    (st : Sprite × Nat × List Issue) :
    ∀ pe ∈ l, startsWithB pe.1 norm = true →
      ∀ t ∈ pe.2, t = tt ∨ t ∈ (l.foldl (dirStep true k norm tt) st).1.tags := by
  induction l generalizing st with
  | nil => intro pe hpe; exact absurd hpe (List.not_mem_nil pe)
  | cons pe0 rest ih =>
    intro pe hpe hk t ht
    rcases List.mem_cons.mp hpe with rfl | hpe'
    · rcases dirStep_fix_post k norm tt st pe hk t ht with h | h
      · exact Or.inl h
      · exact Or.inr (dirFold_fix_mono k norm tt rest _ h)
    · exact ih _ pe hpe' hk t ht

/-- Rule 1 does nothing when the tile type is empty or absent from the tags. -/
theorem ruleStripTT_nofire (fix : Bool) (k : String) (e : Sprite)
    (h : e.tile_type = "" ∨ e.tile_type ∉ e.tags) :
    ruleStripTT fix k e = (e, 0, []) := by
  unfold ruleStripTT
  rw [if_neg]
  rintro ⟨h1, h2⟩
  rcases h with h | h
  · exact h1 h
  · exact h h2

/-- Rule 2 does nothing when the tags are already normalized. -/
theorem ruleTagSpell_nofire (fix : Bool) (k : String) (e : Sprite)
    (h : e.tags.map TAG_SPELLING = e.tags) :
    ruleTagSpell fix k e = (e, 0, []) := by
  unfold ruleTagSpell
  dsimp only
  rw [if_neg (not_not_intro h)]

/-- Rule 3 does nothing when the description is already normalized. -/
theorem ruleDescSpell_nofire (fix : Bool) (k : String) (e : Sprite)
    (h : descFix e.description = e.description) :
    ruleDescSpell fix k e = (e, 0, []) := by
  unfold ruleDescSpell
  dsimp only
  rw [if_neg (not_not_intro h)]

/-- Rule 4 does nothing when a creature carries no equipment tag. -/
theorem ruleCreature_nofire (fix : Bool) (k : String) (e : Sprite)
    (h : e.tile_type = "creature" → e.tags.filter (CREATURE_STRIP_TAGS.contains ·) = []) :
    ruleCreature fix k e = (e, 0, []) := by
  unfold ruleCreature
  exact if_neg (fun hc => hc.2 (h hc.1))

/-- Rule 5 does nothing when an altar carries no weapon tag. -/
theorem ruleAltarStrip_nofire (fix : Bool) (k : String) (e : Sprite)
    (h : e.tile_type = "altar" → e.tags.filter (ALTAR_STRIP_TAGS.contains ·) = []) :
    ruleAltarStrip fix k e = (e, 0, []) := by
  unfold ruleAltarStrip
  exact if_neg (fun hc => hc.2 (h hc.1))

/-- Rule 6 does nothing when the alignment action list is empty. -/
theorem ruleAltarAlign_nofire (fix : Bool) (k : String) (e : Sprite)
    (h : startsWithB "dungeon/altars" (normKey k) = true →
        altarTagFixes e.tags (shouldHoly k) (shouldUnholy k) = []) :
    ruleAltarAlign fix k e = (e, 0, []) := by
  unfold ruleAltarAlign
  dsimp only
  split
  · rename_i hk
    rw [if_neg (not_not_intro (h hk))]
  · rfl

/-- The directory-rule fold does nothing when every matching prefix has
nothing missing. -/
theorem dirFold_nofire (fix : Bool) (k norm tt : String)
    (l : List (String × List String)) (st : Sprite × Nat × List Issue)
    (h : ∀ pe ∈ l, startsWithB pe.1 norm = true →
        pe.2.filter (fun t => !st.1.tags.contains t && t ≠ tt) = []) :
    l.foldl (dirStep fix k norm tt) st = st := by
  induction l with
  | nil => rfl
  | cons pe rest ih =>
    rw [List.foldl_cons]
    have hstep : dirStep fix k norm tt st pe = st := by
      unfold dirStep
      dsimp only
      split
      · rename_i hk
        rw [if_neg (not_not_intro (h pe (List.mem_cons_self _ _) hk))]
      · rfl
    rw [hstep]
    exact ih (fun pe' hpe' => h pe' (List.mem_cons_of_mem _ hpe'))

/-- Rule 7 does nothing when every matching prefix already has all its
expected tags (the tile type excepted). -/
theorem ruleDirTags_nofire (fix : Bool) (k : String) (e : Sprite)
    (h : ∀ pe ∈ DIR_EXPECTED_TAGS, startsWithB pe.1 (normKey k) = true →
        ∀ t ∈ pe.2, t ∈ e.tags ∨ t = e.tile_type) :
    ruleDirTags fix k e = (e, 0, []) := by
  unfold ruleDirTags
  apply dirFold_nofire
  intro pe hpe hk
  rw [List.filter_eq_nil_iff]
  intro t ht
  rcases h pe hpe hk t ht with hm | hm
  · simp [hm]
  · simp [hm]

/-- Safety conditions on one catalog entry under which a second fix pass
is provably a no-op: no duplicate tags; the spelling normalization never
produces the entity's own tile type; an altar-directory entity's tile type
is not an alignment tag; and no creature or altar entity sits under a
directory whose implied tag its own strip rule removes. -/
def FixSafe (k : String) (e : Sprite) : Prop :=
  e.tags.Nodup ∧
  ¬(e.tile_type = "grey" ∧ "gray" ∈ e.tags) ∧
  ¬(e.tile_type = "armour" ∧ "armor" ∈ e.tags) ∧
  (startsWithB "dungeon/altars" (normKey k) = true →
    e.tile_type ≠ "sacred" ∧ e.tile_type ≠ "holy" ∧ e.tile_type ≠ "unholy") ∧
  (e.tile_type = "creature" →
    startsWithB "item/weapon" (normKey k) = false ∧
    startsWithB "item/armour" (normKey k) = false ∧
    startsWithB "player/" (normKey k) = false) ∧
  (e.tile_type = "altar" → startsWithB "item/weapon" (normKey k) = false)

instance (k : String) (e : Sprite) : Decidable (FixSafe k e) := by
  unfold FixSafe
  infer_instance

/-- No directory-implied tag is a spelling-rule source or an alignment tag. -/
theorem dir_tags_plain :
    ∀ pe ∈ DIR_EXPECTED_TAGS, ∀ t ∈ pe.2, t ≠ "gray" ∧ t ≠ "armor" ∧
      t ≠ "sacred" ∧ t ≠ "holy" ∧ t ≠ "unholy" := by decide

/-- Outside the three excluded directories, no implied tag is
creature-stripped. -/
theorem dir_tags_creature :
    ∀ pe ∈ DIR_EXPECTED_TAGS, pe.1 ≠ "item/weapon" → pe.1 ≠ "item/armour" →
      pe.1 ≠ "player/" → ∀ t ∈ pe.2, t ∉ CREATURE_STRIP_TAGS := by decide

/-- Outside `item/weapon`, no implied tag is altar-stripped. -/
theorem dir_tags_altar :
    ∀ pe ∈ DIR_EXPECTED_TAGS, pe.1 ≠ "item/weapon" →
      ∀ t ∈ pe.2, t ∉ ALTAR_STRIP_TAGS := by decide

/-- The alignment tags are not strip-rule targets. -/
theorem align_tags_not_strip :
    ∀ x, (x = "sacred" ∨ x = "holy" ∨ x = "unholy") →
      x ∉ CREATURE_STRIP_TAGS ∧ x ∉ ALTAR_STRIP_TAGS ∧
      x ≠ "gray" ∧ x ≠ "armor" := by
  rintro x (rfl | rfl | rfl) <;> exact ⟨by decide, by decide, by decide, by decide⟩

/-- The sprite after the three base rules (1–3) in fix mode. -/
def pipe3 (k : String) (e : Sprite) : Sprite :=
  (ruleDescSpell true k (ruleTagSpell true k (ruleStripTT true k e).1).1).1

/-- The sprite after the full per-entity pipeline in fix mode. -/
def pipe7 (hasDcss : Bool) (k : String) (e : Sprite) : Sprite :=
  if hasDcss then
    (ruleDirTags true k
      (ruleAltarAlign true k
        (ruleAltarStrip true k (ruleCreature true k (pipe3 k e)).1).1).1).1
  else pipe3 k e

/-- The sprite a fix-mode `entityCheck` emits is the staged pipeline output. -/
theorem entityCheck_fix_fst (hasDcss : Bool) (k : String) (e : Sprite) :
    (entityCheck hasDcss true k e).1 = pipe7 hasDcss k e := by
  cases hasDcss <;>
    simp only [entityCheck, pipe7, pipe3, Bool.false_eq_true, eq_self_iff_true,
      if_false, if_true, ite_true, ite_false]

/-- `TAG_SPELLING` never outputs "gray" or "armor" over a list. -/
theorem map_spell_no_sources (l : List String) :
    "gray" ∉ l.map TAG_SPELLING ∧ "armor" ∉ l.map TAG_SPELLING := by
  constructor <;> intro hc
  · obtain ⟨t, _, h⟩ := List.mem_map.mp hc
    exact spell_ne_gray t h
  · obtain ⟨t, _, h⟩ := List.mem_map.mp hc
    exact spell_ne_armor t h

/-- Invariants established by the three base rules in fix mode. -/
theorem pipe3_spec (k : String) (e : Sprite) (hnd : e.tags.Nodup)
    (hg : ¬(e.tile_type = "grey" ∧ "gray" ∈ e.tags))
    (ha : ¬(e.tile_type = "armour" ∧ "armor" ∈ e.tags)) :
    (pipe3 k e).tile_type = e.tile_type ∧
    (pipe3 k e).description = descFix e.description ∧
    (e.tile_type = "" ∨ e.tile_type ∉ (pipe3 k e).tags) ∧
    "gray" ∉ (pipe3 k e).tags ∧ "armor" ∉ (pipe3 k e).tags ∧
    (∀ x : String, x ≠ "grey" → x ≠ "armour" → x ≠ "gray" → x ≠ "armor" →
      (pipe3 k e).tags.count x ≤ e.tags.count x) := by
  obtain ⟨hsub_a, hdesc_a, htt_a⟩ := ruleStripTT_fix_sub k e
  have hno_a := ruleStripTT_fix_no_tt k e hnd
  have hb := ruleTagSpell_fix_eq k (ruleStripTT true k e).1
  have hc := ruleDescSpell_fix_eq k (ruleTagSpell true k (ruleStripTT true k e).1).1
  have hbt : ((ruleTagSpell true k (ruleStripTT true k e).1).1).tags
      = ((ruleStripTT true k e).1).tags.map TAG_SPELLING := by rw [hb]
  have hbd : ((ruleTagSpell true k (ruleStripTT true k e).1).1).description
      = ((ruleStripTT true k e).1).description := by rw [hb]
  have hbtt : ((ruleTagSpell true k (ruleStripTT true k e).1).1).tile_type
      = ((ruleStripTT true k e).1).tile_type := by rw [hb]
  have hct : (pipe3 k e).tags
      = ((ruleTagSpell true k (ruleStripTT true k e).1).1).tags := by
    unfold pipe3
    rw [hc]
  have hcd : (pipe3 k e).description
      = descFix ((ruleTagSpell true k (ruleStripTT true k e).1).1).description := by
    unfold pipe3
    rw [hc]
  have hctt : (pipe3 k e).tile_type
      = ((ruleTagSpell true k (ruleStripTT true k e).1).1).tile_type := by
    unfold pipe3
    rw [hc]
  have htags : (pipe3 k e).tags = ((ruleStripTT true k e).1).tags.map TAG_SPELLING :=
    hct.trans hbt
  have htt : (pipe3 k e).tile_type = e.tile_type :=
    (hctt.trans hbtt).trans htt_a
  have hdesc : (pipe3 k e).description = descFix e.description := by
    rw [hcd, hbd, hdesc_a]
  refine ⟨htt, hdesc, ?_, ?_, ?_, ?_⟩
  · rcases hno_a with h | h
    · exact Or.inl h
    · right
      rw [htags]
      apply not_mem_map_spell h
      · intro hgrey hcon
        exact hg ⟨hgrey, hsub_a.subset hcon⟩
      · intro harm hcon
        exact ha ⟨harm, hsub_a.subset hcon⟩
  · rw [htags]
    exact (map_spell_no_sources _).1
  · rw [htags]
    exact (map_spell_no_sources _).2
  · intro x h1 h2 h3 h4
    rw [htags, count_map_spell h3 h4 h1 h2]
    exact hsub_a.count_le x

/-- Invariants established by the full fix-mode pipeline with the DCSS
rules active: the sprite that comes out is a fixed point of every rule's
fire condition (under `FixSafe`). -/
theorem pipe7_spec (k : String) (e : Sprite) (hs : FixSafe k e) :
    (pipe7 true k e).tile_type = e.tile_type ∧
    descFix (pipe7 true k e).description = (pipe7 true k e).description ∧
    (e.tile_type = "" ∨ e.tile_type ∉ (pipe7 true k e).tags) ∧
    ("gray" ∉ (pipe7 true k e).tags ∧ "armor" ∉ (pipe7 true k e).tags) ∧
    (e.tile_type = "creature" → ∀ s ∈ CREATURE_STRIP_TAGS, s ∉ (pipe7 true k e).tags) ∧
    (e.tile_type = "altar" → ∀ s ∈ ALTAR_STRIP_TAGS, s ∉ (pipe7 true k e).tags) ∧
    (startsWithB "dungeon/altars" (normKey k) = true →
      "sacred" ∈ (pipe7 true k e).tags ∧
      ("holy" ∈ (pipe7 true k e).tags ↔ shouldHoly k = true) ∧
      ("unholy" ∈ (pipe7 true k e).tags ↔ shouldUnholy k = true)) ∧
    (∀ pe ∈ DIR_EXPECTED_TAGS, startsWithB pe.1 (normKey k) = true →
      ∀ t ∈ pe.2, t = e.tile_type ∨ t ∈ (pipe7 true k e).tags) := by
  obtain ⟨hnd, hgr, har, halt, hcrd, hald⟩ := hs
  obtain ⟨htt3, hdesc3, hno3, hgray3, harmor3, hcnt3⟩ := pipe3_spec k e hnd hgr har
  obtain ⟨d, hd⟩ : ∃ d, (ruleCreature true k (pipe3 k e)).1 = d := ⟨_, rfl⟩
  obtain ⟨f, hf⟩ : ∃ f, (ruleAltarStrip true k d).1 = f := ⟨_, rfl⟩
  obtain ⟨g, hg⟩ : ∃ g, (ruleAltarAlign true k f).1 = g := ⟨_, rfl⟩
  have hp7 : pipe7 true k e = (ruleDirTags true k g).1 := by
    unfold pipe7
    rw [if_pos rfl, hd, hf, hg]
  have ho : (ruleDirTags true k g).1 =
      (DIR_EXPECTED_TAGS.foldl (dirStep true k (normKey k) g.tile_type) (g, 0, [])).1 := rfl
  obtain ⟨hd_sub, hd_desc, hd_tt⟩ := ruleCreature_fix_sub k (pipe3 k e)
  rw [hd] at hd_sub hd_desc hd_tt
  obtain ⟨hf_sub, hf_desc, hf_tt⟩ := ruleAltarStrip_fix_sub k d
  rw [hf] at hf_sub hf_desc hf_tt
  obtain ⟨hg_desc, hg_tt⟩ := ruleAltarAlign_fix_frame k f
  rw [hg] at hg_desc hg_tt
  have htt_d : d.tile_type = e.tile_type := hd_tt.trans htt3
  have htt_f : f.tile_type = e.tile_type := hf_tt.trans htt_d
  have htt_g : g.tile_type = e.tile_type := hg_tt.trans htt_f
  have hofr := dirFold_fix_frame k (normKey k) g.tile_type DIR_EXPECTED_TAGS (g, 0, [])
  have htt_o : (pipe7 true k e).tile_type = e.tile_type := by
    rw [hp7, ho]
    exact hofr.2.trans htt_g
  have hdesc_o : (pipe7 true k e).description = descFix e.description := by
    rw [hp7, ho]
    exact hofr.1.trans (hg_desc.trans (hf_desc.trans (hd_desc.trans hdesc3)))
  have hgray_f : "gray" ∉ f.tags := fun hm => hgray3 (hd_sub.subset (hf_sub.subset hm))
  have harmor_f : "armor" ∉ f.tags := fun hm => harmor3 (hd_sub.subset (hf_sub.subset hm))
  have hgray_g : "gray" ∉ g.tags := by
    intro hm
    rw [← hg] at hm
    rcases ruleAltarAlign_fix_mem hm with h' | ⟨_, h'⟩
    · exact hgray_f h'
    · rcases h' with h' | h' | h' <;> exact absurd h' (by decide)
  have harmor_g : "armor" ∉ g.tags := by
    intro hm
    rw [← hg] at hm
    rcases ruleAltarAlign_fix_mem hm with h' | ⟨_, h'⟩
    · exact harmor_f h'
    · rcases h' with h' | h' | h' <;> exact absurd h' (by decide)
  have hgray_o : "gray" ∉ (pipe7 true k e).tags := by
    rw [hp7, ho]
    intro hm
    rcases dirFold_fix_src k (normKey k) g.tile_type DIR_EXPECTED_TAGS (g, 0, []) hm with
      h' | ⟨pe, hpe, _, hm', _⟩
    · exact hgray_g h'
    · exact (dir_tags_plain pe hpe _ hm').1 rfl
  have harmor_o : "armor" ∉ (pipe7 true k e).tags := by
    rw [hp7, ho]
    intro hm
    rcases dirFold_fix_src k (normKey k) g.tile_type DIR_EXPECTED_TAGS (g, 0, []) hm with
      h' | ⟨pe, hpe, _, hm', _⟩
    · exact harmor_g h'
    · exact (dir_tags_plain pe hpe _ hm').2.1 rfl
  have hno_o : e.tile_type = "" ∨ e.tile_type ∉ (pipe7 true k e).tags := by
    rcases hno3 with h | h
    · exact Or.inl h
    · right
      have hnd' : e.tile_type ∉ d.tags := fun hm => h (hd_sub.subset hm)
      have hnf : e.tile_type ∉ f.tags := fun hm => hnd' (hf_sub.subset hm)
      have hng : e.tile_type ∉ g.tags := by
        intro hm
        rw [← hg] at hm
        rcases ruleAltarAlign_fix_mem hm with h' | ⟨hk, h'⟩
        · exact hnf h'
        · obtain ⟨h1, h2, h3⟩ := halt hk
          rcases h' with h' | h' | h'
          · exact h1 h'
          · exact h2 h'
          · exact h3 h'
      rw [hp7, ho]
      intro hm
      rcases dirFold_fix_src k (normKey k) g.tile_type DIR_EXPECTED_TAGS (g, 0, []) hm with
        h' | ⟨pe, _, _, _, hne⟩
      · exact hng h'
      · exact hne htt_g.symm
  have hcre_o : e.tile_type = "creature" →
      ∀ s ∈ CREATURE_STRIP_TAGS, s ∉ (pipe7 true k e).tags := by
    intro htt s hsmem
    have hd_strip := ruleCreature_fix_strip k (pipe3 k e) (htt3.trans htt) s hsmem
    rw [hd] at hd_strip
    have hf' : s ∉ f.tags := fun hm => hd_strip (hf_sub.subset hm)
    have hg' : s ∉ g.tags := by
      intro hm
      rw [← hg] at hm
      rcases ruleAltarAlign_fix_mem hm with h' | ⟨_, h'⟩
      · exact hf' h'
      · exact (align_tags_not_strip s h').1 hsmem
    rw [hp7, ho]
    intro hm
    rcases dirFold_fix_src k (normKey k) g.tile_type DIR_EXPECTED_TAGS (g, 0, []) hm with
      h' | ⟨pe, hpe, hst, hm', _⟩
    · exact hg' h'
    · obtain ⟨hw, ha2, hp⟩ := hcrd htt
      have h1 : pe.1 ≠ "item/weapon" := fun hq => by simp [hq, hw] at hst
      have h2 : pe.1 ≠ "item/armour" := fun hq => by simp [hq, ha2] at hst
      have h3 : pe.1 ≠ "player/" := fun hq => by simp [hq, hp] at hst
      exact dir_tags_creature pe hpe h1 h2 h3 s hm' hsmem
  have halt_o : e.tile_type = "altar" →
      ∀ s ∈ ALTAR_STRIP_TAGS, s ∉ (pipe7 true k e).tags := by
    intro htt s hsmem
    have hf_strip := ruleAltarStrip_fix_strip k d (htt_d.trans htt) s hsmem
    rw [hf] at hf_strip
    have hg' : s ∉ g.tags := by
      intro hm
      rw [← hg] at hm
      rcases ruleAltarAlign_fix_mem hm with h' | ⟨_, h'⟩
      · exact hf_strip h'
      · exact (align_tags_not_strip s h').2.1 hsmem
    rw [hp7, ho]
    intro hm
    rcases dirFold_fix_src k (normKey k) g.tile_type DIR_EXPECTED_TAGS (g, 0, []) hm with
      h' | ⟨pe, hpe, hst, hm', _⟩
    · exact hg' h'
    · have hw := hald htt
      have h1 : pe.1 ≠ "item/weapon" := fun hq => by simp [hq, hw] at hst
      exact dir_tags_altar pe hpe h1 s hm' hsmem
  have hmono_o : ∀ x, x ∈ g.tags → x ∈ (pipe7 true k e).tags := by
    intro x hx
    rw [hp7, ho]
    exact dirFold_fix_mono k (normKey k) g.tile_type DIR_EXPECTED_TAGS (g, 0, []) hx
  have hsrc_o : ∀ x, x ∈ (pipe7 true k e).tags →
      x ∈ g.tags ∨ ∃ pe ∈ DIR_EXPECTED_TAGS, x ∈ pe.2 := by
    intro x hx
    rw [hp7, ho] at hx
    rcases dirFold_fix_src k (normKey k) g.tile_type DIR_EXPECTED_TAGS (g, 0, []) hx with
      h | ⟨pe, hpe, _, hm, _⟩
    · exact Or.inl h
    · exact Or.inr ⟨pe, hpe, hm⟩
  have halign_o : startsWithB "dungeon/altars" (normKey k) = true →
      "sacred" ∈ (pipe7 true k e).tags ∧
      ("holy" ∈ (pipe7 true k e).tags ↔ shouldHoly k = true) ∧
      ("unholy" ∈ (pipe7 true k e).tags ↔ shouldUnholy k = true) := by
    intro hk
    have hsubpf : f.tags.Sublist (pipe3 k e).tags := hf_sub.trans hd_sub
    have hcnt_h : f.tags.count "holy" ≤ 1 :=
      le_trans (hsubpf.count_le "holy")
        (le_trans (hcnt3 "holy" (by decide) (by decide) (by decide) (by decide))
          (List.nodup_iff_count_le_one.mp hnd "holy"))
    have hcnt_u : f.tags.count "unholy" ≤ 1 :=
      le_trans (hsubpf.count_le "unholy")
        (le_trans (hcnt3 "unholy" (by decide) (by decide) (by decide) (by decide))
          (List.nodup_iff_count_le_one.mp hnd "unholy"))
    obtain ⟨hsac, hhol, hunh⟩ := ruleAltarAlign_fix_post k f hk hcnt_h hcnt_u
    rw [hg] at hsac hhol hunh
    refine ⟨hmono_o _ hsac, ⟨?_, fun hb => hmono_o _ (hhol.mpr hb)⟩,
      ⟨?_, fun hb => hmono_o _ (hunh.mpr hb)⟩⟩
    · intro hm
      rcases hsrc_o _ hm with h | ⟨pe, hpe, hm'⟩
      · exact hhol.mp h
      · exact absurd rfl (dir_tags_plain pe hpe _ hm').2.2.2.1
    · intro hm
      rcases hsrc_o _ hm with h | ⟨pe, hpe, hm'⟩
      · exact hunh.mp h
      · exact absurd rfl (dir_tags_plain pe hpe _ hm').2.2.2.2
  have hdir_o : ∀ pe ∈ DIR_EXPECTED_TAGS, startsWithB pe.1 (normKey k) = true →
      ∀ t ∈ pe.2, t = e.tile_type ∨ t ∈ (pipe7 true k e).tags := by
    intro pe hpe hst t ht
    rw [hp7, ho]
    rcases dirFold_fix_post k (normKey k) g.tile_type DIR_EXPECTED_TAGS (g, 0, [])
        pe hpe hst t ht with h | h
    · exact Or.inl (h.trans htt_g)
    · exact Or.inr h
  refine ⟨htt_o, ?_, hno_o, ⟨hgray_o, harmor_o⟩, hcre_o, halt_o, halign_o, hdir_o⟩
  rw [hdesc_o]
  exact descFix_idem e.description

/-- A sprite already in the intended alignment state generates no
alignment actions. -/
theorem altarTagFixes_nil_of {tags : List String} {sh su : Bool}
    (hsac : "sacred" ∈ tags) (hh : "holy" ∈ tags ↔ sh = true)
    (hu : "unholy" ∈ tags ↔ su = true) :
    altarTagFixes tags sh su = [] := by
  rcases Bool.eq_false_or_eq_true sh with hsh | hsh <;>
    rcases Bool.eq_false_or_eq_true su with hsu | hsu <;>
    subst hsh <;> subst hsu <;>
    simp_all [altarTagFixes]

/-- If no rule fires on a sprite, the per-entity check applies no fix. -/
theorem entityCheck_nofire (hasDcss : Bool) (k : String) (o : Sprite)
    (h1 : ruleStripTT true k o = (o, 0, []))
    (h2 : ruleTagSpell true k o = (o, 0, []))
    (h3 : ruleDescSpell true k o = (o, 0, []))
    (h4 : hasDcss = true → ruleCreature true k o = (o, 0, []))
    (h5 : hasDcss = true → ruleAltarStrip true k o = (o, 0, []))
    (h6 : hasDcss = true → ruleAltarAlign true k o = (o, 0, []))
    (h7 : hasDcss = true → ruleDirTags true k o = (o, 0, [])) :
    (entityCheck hasDcss true k o).2.1 = 0 := by
  cases hasDcss
  · simp [entityCheck, h1, h2, h3]
  · simp [entityCheck, h1, h2, h3, h4 rfl, h5 rfl, h6 rfl, h7 rfl]

/-- On a `FixSafe` entity, a second fix-mode per-entity check applies no fix. -/
theorem entityCheck_fix_idem (hasDcss : Bool) (k : String) (e : Sprite)
    (hs : FixSafe k e) :
    (entityCheck hasDcss true k ((entityCheck hasDcss true k e).1)).2.1 = 0 := by
  rw [entityCheck_fix_fst]
  obtain ⟨hnd, hgr, har, halt, hcrd, hald⟩ := hs
  cases hasDcss
  · obtain ⟨htt3, hdesc3, hno3, hgray3, harmor3, hcnt3⟩ := pipe3_spec k e hnd hgr har
    have hp : pipe7 false k e = pipe3 k e := rfl
    rw [hp]
    apply entityCheck_nofire
    · apply ruleStripTT_nofire
      rw [htt3]
      exact hno3
    · exact ruleTagSpell_nofire _ _ _ (map_spell_eq_self hgray3 harmor3)
    · apply ruleDescSpell_nofire
      rw [hdesc3]
      exact descFix_idem e.description
    · intro h; exact absurd h Bool.false_ne_true
    · intro h; exact absurd h Bool.false_ne_true
    · intro h; exact absurd h Bool.false_ne_true
    · intro h; exact absurd h Bool.false_ne_true
  · obtain ⟨htt_o, hdesc_o, hno_o, ⟨hgray_o, harmor_o⟩, hcre_o, halt_o, halign_o, hdir_o⟩ :=
      pipe7_spec k e ⟨hnd, hgr, har, halt, hcrd, hald⟩
    apply entityCheck_nofire
    · apply ruleStripTT_nofire
      rw [htt_o]
      exact hno_o
    · exact ruleTagSpell_nofire _ _ _ (map_spell_eq_self hgray_o harmor_o)
    · exact ruleDescSpell_nofire _ _ _ hdesc_o
    · intro _
      apply ruleCreature_nofire
      intro htt
      rw [List.filter_eq_nil_iff]
      intro t htm hc
      exact hcre_o (htt_o.symm.trans htt) t (by simpa using hc) htm
    · intro _
      apply ruleAltarStrip_nofire
      intro htt
      rw [List.filter_eq_nil_iff]
      intro t htm hc
      exact halt_o (htt_o.symm.trans htt) t (by simpa using hc) htm
    · intro _
      apply ruleAltarAlign_nofire
      intro hk
      obtain ⟨hsac, hhol, hunh⟩ := halign_o hk
      exact altarTagFixes_nil_of hsac hhol hunh
    · intro _
      apply ruleDirTags_nofire
      intro pe hpe hst t ht
      rcases hdir_o pe hpe hst t ht with h | h
      · exact Or.inr (h.trans htt_o.symm)
      · exact Or.inl h

/-- The fix count of a check run is the sum of per-enriched-entity counts. -/
theorem check_atlas_fixes_eq (hasDcss fix : Bool) (cat : Catalog) :
    (check_atlas_model hasDcss fix cat).fixes =
      (cat.map (fun p =>
        if is_enriched p.2 then (entityCheck hasDcss fix p.1 p.2).2.1 else 0)).sum := by
  unfold check_atlas_model
  dsimp only
  rw [List.map_map]
  congr 1
  apply List.map_congr_left
  intro p _
  by_cases h : is_enriched p.2 = true <;> simp [Function.comp, h]

/-- The catalog a check run emits, entity by entity. -/
theorem check_atlas_catalog_eq (hasDcss fix : Bool) (cat : Catalog) :
    (check_atlas_model hasDcss fix cat).catalog =
      cat.map (fun p =>
        (p.1, if is_enriched p.2 then (entityCheck hasDcss fix p.1 p.2).1 else p.2)) := by
  unfold check_atlas_model
  dsimp only
  rw [List.map_map]
  apply List.map_congr_left
  intro p _
  by_cases h : is_enriched p.2 = true <;> simp [Function.comp, h]

/-- C6: running `check_atlas` in fix mode a second time on the catalog the
first fix-mode run produced applies zero fixes — provided every entity is
`FixSafe`: its tags hold no duplicates, the spelling normalization cannot
produce its own tile type, an altar-directory entity's tile type is not an
alignment tag, and no creature/altar entity sits under a directory whose
implied tag its own strip rule removes.  (Without these side conditions
the claim is false, see the counterexample.) -/
theorem check_fix_idempotent (hasDcss : Bool) (cat : Catalog)
    (hsafe : ∀ p ∈ cat, FixSafe p.1 p.2) :
    (check_atlas_model hasDcss true
        (check_atlas_model hasDcss true cat).catalog).fixes = 0 := by
  rw [check_atlas_fixes_eq, check_atlas_catalog_eq, List.map_map]
  apply List.sum_eq_zero
  intro x hx
  rw [List.mem_map] at hx
  obtain ⟨p, hp, hpx⟩ := hx
  rw [← hpx]
  by_cases he : is_enriched p.2 = true
  · dsimp only [Function.comp]
    rw [if_pos he]
    split
    · exact entityCheck_fix_idem hasDcss p.1 p.2 (hsafe p hp)
    · rfl
  · dsimp only [Function.comp]
    rw [if_neg he, if_neg he]

/-- C6 counterexample: on an entity whose tags contain a duplicate of its
own tile type, the second fix-mode `check_atlas` run applies a fix again
(rule 1 strips only the first occurrence per pass), so the fix pass is not
idempotent unconditionally. -/
theorem check_fix_not_idempotent_cex :
    (check_atlas_model true true
      (check_atlas_model true true
        [("misc/crate.png",
          ⟨"a wooden crate", ["door", "door", "wood"], "door"⟩)]).catalog).fixes = 1 := by
  decide

/-- C6 witness: a concrete `FixSafe` altar catalog on which the theorem
applies; the first run does fix it (spelling and alignment), and the
second run provably applies nothing. -/
theorem check_fix_idempotent_witness :
    (∀ p ∈ [("dungeon/altars/altar_zin.png",
        (⟨"An altar of Zin with gray stone", ["statue", "stone"], "altar"⟩ : Sprite))],
      FixSafe p.1 p.2) ∧
    (check_atlas_model true true
        (check_atlas_model true true
          [("dungeon/altars/altar_zin.png",
            ⟨"An altar of Zin with gray stone", ["statue", "stone"], "altar"⟩)]).catalog).fixes
      = 0 :=
  ⟨by decide, check_fix_idempotent true _ (by decide)⟩
